import Mathlib

/-!
# Verification of the gofountain fountain-code library

A shallow embedding of the `fountain` Go package: byte blocks with implicit
zero padding, the RFC 5053 partition function, the sparse XOR-equation solver
(`xorRow`, `addEquation`, `determined`, `reduce`, `reconstruct`), the degree
and combinatorial helpers, and the codec layers (Luby transform encoding,
Raptor/RU10 intermediate symbols).

Machine integers of the Go source are embedded as `ℕ` (all the quantities
involved are non-negative and no operation in the embedded fragments relies on
wrap-around).  Go float computations that only seed integer loops
(`math.Ceil`, `math.Floor`, `math.Sqrt` in `partition` and
`intermediateSymbols`) are embedded by their exact integer counterparts; for
the argument ranges the library supports these coincide with the IEEE-double
computations of the source.
-/

namespace GoFountain

/-- A byte string.  Entries are byte values; XOR never needs the `< 256`
bound, so we do not carry it. -/
abbrev Bytes := List ℕ

/-- XOR of two byte strings, zero-extending the shorter one.  This is the
semantics of the in-place loop in Go `block.xor` after the destination has
been grown: positions past the end of either operand are treated as zero. -/
def bxor : Bytes → Bytes → Bytes
  | [], ys => ys
  | x :: xs, [] => x :: xs
  | x :: xs, y :: ys => (x ^^^ y) :: bxor xs ys

@[simp] theorem bxor_nil_left (ys : Bytes) : bxor [] ys = ys := by cases ys <;> rfl

@[simp] theorem bxor_nil_right (xs : Bytes) : bxor xs [] = xs := by cases xs <;> rfl

@[simp] theorem bxor_cons (x y : ℕ) (xs ys : Bytes) :
    bxor (x :: xs) (y :: ys) = (x ^^^ y) :: bxor xs ys := rfl

theorem bxor_length (xs ys : Bytes) :
    (bxor xs ys).length = max xs.length ys.length := by
  induction xs generalizing ys with
  | nil => simp
  | cons x xs ih =>
    cases ys with
    | nil => simp
    | cons y ys => simp [ih, Nat.succ_max_succ]

theorem bxor_comm (xs ys : Bytes) : bxor xs ys = bxor ys xs := by
  induction xs generalizing ys with
  | nil => simp
  | cons x xs ih =>
    cases ys with
    | nil => simp
    | cons y ys => simp [ih, Nat.xor_comm]

theorem bxor_assoc (xs ys zs : Bytes) :
    bxor (bxor xs ys) zs = bxor xs (bxor ys zs) := by
  induction xs generalizing ys zs with
  | nil => simp
  | cons x xs ih =>
    cases ys with
    | nil => simp
    | cons y ys =>
      cases zs with
      | nil => simp
      | cons z zs => simp [ih, Nat.xor_assoc]

theorem bxor_self (xs : Bytes) : bxor xs xs = List.replicate xs.length 0 := by
  induction xs with
  | nil => rfl
  | cons x xs ih => simp [ih, List.replicate_succ]

/-- A `block`: a byte payload plus an explicit number of (notional, zero)
padding bytes at the end. -/
structure Block where
  data : Bytes
  padding : ℕ
deriving Repr, DecidableEq

/-- `block.length`: data bytes plus padding bytes. -/
def Block.length (b : Block) : ℕ := b.data.length + b.padding

/-- `block.empty`. -/
def Block.isEmpty (b : Block) : Bool := b.length == 0

/-- Go `block.xor`: grow `b.data` with zero bytes to at least `a.data`'s
length — consuming that much of `b.padding`, clamped at zero — then XOR the
first `len(a.data)` bytes in place.  The grown-then-XORed data equals
`bxor b.data a.data`. -/
def Block.xor (b : Block) (a : Block) : Block :=
  if b.data.length < a.data.length then
    let inc := a.data.length - b.data.length
    { data := bxor b.data a.data
      padding := if b.padding > inc then b.padding - inc else 0 }
  else
    { data := bxor b.data a.data, padding := b.padding }

theorem Block.xor_data (b a : Block) : (b.xor a).data = bxor b.data a.data := by
  unfold Block.xor
  split <;> rfl

theorem Block.xor_data_length (b a : Block) :
    (b.xor a).data.length = max b.data.length a.data.length := by
  rw [Block.xor_data, bxor_length]

/-- The zero block. -/
def Block.zero : Block := { data := [], padding := 0 }

/-- Exact form of the length guarantee of `block.xor`: the logical length of
the destination becomes the maximum of its old logical length and the
*data* length of the source (source padding is ignored by the Go code). -/
theorem Block.xor_length (b a : Block) :
    (b.xor a).length = max b.length a.data.length := by
  unfold Block.xor Block.length
  split
  · next hlt =>
    simp only [bxor_length]
    split
    · next hpad =>
      have h1 : max b.data.length a.data.length = a.data.length :=
        Nat.max_eq_right (Nat.le_of_lt hlt)
      rw [h1]
      omega
    · next hpad =>
      have h1 : max b.data.length a.data.length = a.data.length :=
        Nat.max_eq_right (Nat.le_of_lt hlt)
      rw [h1]
      omega
  · next hge =>
    simp only [bxor_length]
    have h1 : max b.data.length a.data.length = b.data.length := by omega
    rw [h1]
    omega

/-- `partition` from RFC 5053 §5.3.1.2, embedded with exact integer
arithmetic: `⌈i/j⌉` and `⌊i/j⌋` replace the Go float `math.Ceil`/`math.Floor`
computations (exact for the library's argument ranges). -/
def partition (i j : ℕ) : ℕ × ℕ × ℕ × ℕ :=
  let il := (i + j - 1) / j
  let is := i / j
  let jl := i - is * j
  let js := j - jl
  (if jl = 0 then 0 else il, if js = 0 then 0 else is, jl, js)

theorem ceil_div_eq (t p : ℕ) (hp : 0 < p) : ⌈(t : ℚ) / p⌉₊ = (t + p - 1) / p := by
  have hp0 : (0 : ℚ) < p := by exact_mod_cast hp
  have h1 : p * ((t + p - 1) / p) + (t + p - 1) % p = t + p - 1 := Nat.div_add_mod _ _
  have h2 : (t + p - 1) % p < p := Nat.mod_lt _ hp
  have hc : p * ((t + p - 1) / p) = ((t + p - 1) / p) * p := Nat.mul_comm _ _
  apply le_antisymm
  · rw [Nat.ceil_le, div_le_iff₀ hp0]
    have hn : t ≤ (t + p - 1) / p * p := by omega
    exact_mod_cast hn
  · rcases Nat.eq_zero_or_pos ((t + p - 1) / p) with hq | hq
    · simp [hq]
    · have h3 := Nat.sub_mul ((t + p - 1) / p) 1 p
      have ht : 0 < t := by
        by_contra ht0
        have : t = 0 := by omega
        subst this
        have : (0 + p - 1) / p = 0 := Nat.div_eq_of_lt (by omega)
        omega
      have hn : ((t + p - 1) / p - 1) * p < t := by omega
      have h4 : ((t + p - 1) / p - 1 : ℕ) < ⌈(t : ℚ) / p⌉₊ := by
        rw [Nat.lt_ceil, lt_div_iff₀ hp0]
        exact_mod_cast hn
      omega

theorem floor_div_eq (t p : ℕ) : ⌊(t : ℚ) / p⌋₊ = t / p :=
  Nat.floor_div_eq_div t p

/-- C4 counterexample: `xor` ignores the *padding* of the source block, so
after `a.xor(b)` the logical length of `a` can be smaller than `length(b)`.
Here `a` is the empty block and `b` is a pure-padding block of length 5:
the call leaves `a` of length 0. -/
theorem block_xor_length_counterexample :
    ¬ ((Block.xor ⟨[], 0⟩ ⟨[], 5⟩).data.length =
          max (Block.data ⟨[], 0⟩).length (Block.data ⟨[], 5⟩).length ∧
        Block.length (Block.xor ⟨[], 0⟩ ⟨[], 5⟩) ≥
          max (Block.length ⟨[], 0⟩) (Block.length ⟨[], 5⟩)) := by
  decide

/-- C4 (amended): after `a.xor(b)`, `len(a.data)` equals the maximum of its
old value and `len(b.data)`, and `length(a)` equals (hence is at least) the
maximum of its old value and `len(b.data)` — the source's *data* length, not
its padded logical length. -/
theorem block_xor_length_spec (a b : Block) :
    (a.xor b).data.length = max a.data.length b.data.length ∧
    (a.xor b).length = max a.length b.data.length :=
  ⟨Block.xor_data_length a b, Block.xor_length a b⟩

/-- C5: `partition(total, p)` returns
`(lenLong, lenShort, numLong, numShort)` with `lenLong = ⌈total/p⌉`,
`lenShort = ⌊total/p⌋`, `numLong = total - lenShort·p`,
`numShort = p - numLong`, except that a count of zero zeroes the matching
length; the counts and lengths recombine to `total` and `p`; and the three
concrete examples from the spec hold. -/
theorem partition_spec (total p : ℕ) (hp : 0 < p) :
    (partition total p).1 =
      (if total - ⌊(total : ℚ) / p⌋₊ * p = 0 then 0 else ⌈(total : ℚ) / p⌉₊) ∧
    (partition total p).2.1 =
      (if p - (total - ⌊(total : ℚ) / p⌋₊ * p) = 0 then 0 else ⌊(total : ℚ) / p⌋₊) ∧
    (partition total p).2.2.1 = total - ⌊(total : ℚ) / p⌋₊ * p ∧
    (partition total p).2.2.2 = p - (total - ⌊(total : ℚ) / p⌋₊ * p) ∧
    (partition total p).2.2.1 * (partition total p).1 +
      (partition total p).2.2.2 * (partition total p).2.1 = total ∧
    (partition total p).2.2.1 + (partition total p).2.2.2 = p ∧
    partition 100 9 = (12, 11, 1, 8) ∧
    partition 100 10 = (0, 10, 0, 10) ∧
    partition 100 11 = (10, 9, 1, 10) := by
  have hfl := floor_div_eq total p
  have hcl := ceil_div_eq total p hp
  have hdm : p * (total / p) + total % p = total := Nat.div_add_mod total p
  have hc : p * (total / p) = total / p * p := Nat.mul_comm _ _
  have hmlt : total % p < p := Nat.mod_lt _ hp
  have hnl : total - total / p * p = total % p := by omega
  have hceil : total % p ≠ 0 → (total + p - 1) / p = total / p + 1 := by
    intro hr
    have hx : p * (total / p + 1) = p * (total / p) + p := by ring
    have h1 : total + p - 1 = (total % p - 1) + p * (total / p + 1) := by omega
    rw [h1, Nat.add_mul_div_left _ _ hp, Nat.div_eq_of_lt (by omega)]
    omega
  have hout : partition total p =
      ((if total % p = 0 then 0 else (total + p - 1) / p), total / p,
        total % p, p - total % p) := by
    simp only [partition, hnl]
    rw [if_neg (by omega : ¬ p - total % p = 0)]
  refine ⟨?_, ?_, ?_, ?_, ?_, ?_, by decide, by decide, by decide⟩
  · rw [hout, hfl, hcl, hnl]
  · rw [hout, hfl, hnl, if_neg (by omega : ¬ p - total % p = 0)]
  · rw [hout, hfl, hnl]
  · rw [hout, hfl, hnl]
  · rw [hout]
    dsimp only
    rcases Nat.eq_zero_or_pos (total % p) with hz | hz
    · rw [hz, if_pos rfl]
      have hs : (p - 0) * (total / p) = p * (total / p) := by
        rw [Nat.sub_zero]
      omega
    · rw [if_neg (by omega : ¬ total % p = 0), hceil (by omega)]
      have he : total % p * (total / p + 1) = total % p * (total / p) + total % p := by
        ring
      have hs : (p - total % p) * (total / p) =
          p * (total / p) - total % p * (total / p) := Nat.sub_mul _ _ _
      have hle : total % p * (total / p) ≤ p * (total / p) :=
        Nat.mul_le_mul_right _ (Nat.le_of_lt hmlt)
      omega
  · rw [hout]
    dsimp only
    omega

/-- C5 witness: the three concrete partition examples, via `partition_spec`. -/
theorem partition_spec_witness :
    partition 100 9 = (12, 11, 1, 8) ∧ partition 100 10 = (0, 10, 0, 10) ∧
    partition 100 11 = (10, 9, 1, 10) :=
  ⟨(partition_spec 100 9 (by decide)).2.2.2.2.2.2.1,
   (partition_spec 100 10 (by decide)).2.2.2.2.2.2.2.1,
   (partition_spec 100 11 (by decide)).2.2.2.2.2.2.2.2⟩

/-! ## The sparse XOR-equation matrix -/

/-- The sorted-merge walk of Go `xorRow` that computes the symmetric
difference (set XOR) of two sorted index lists: equal heads are skipped
in pairs, otherwise the smaller head is emitted; the leftover tail of either
list is appended. -/
def symmDiff : List ℕ → List ℕ → List ℕ
  | [], ys => ys
  | x :: xs, [] => x :: xs
  | x :: xs, y :: ys =>
    if x = y then symmDiff xs ys
    else if x < y then x :: symmDiff xs (y :: ys)
    else y :: symmDiff (x :: xs) ys
termination_by xs ys => xs.length + ys.length

/-- `sparseMatrix`: parallel lists of coefficient rows (sorted index lists)
and right-hand-side blocks. -/
structure SparseMatrix where
  coeff : List (List ℕ)
  v : List Block
deriving Repr, DecidableEq

/-- Number of rows (unknowns) of the matrix. -/
def SparseMatrix.L (m : SparseMatrix) : ℕ := m.coeff.length

/-- Row `i`'s coefficient list (`m.coeff[i]`). -/
def SparseMatrix.row (m : SparseMatrix) (i : ℕ) : List ℕ := m.coeff.getD i []

/-- Row `i`'s value (`m.v[i]`). -/
def SparseMatrix.val (m : SparseMatrix) (i : ℕ) : Block := m.v.getD i Block.zero

/-- Go `sparseMatrix.xorRow`: XOR the candidate's value with row `s`'s value
and take the symmetric difference of the coefficient lists. -/
def SparseMatrix.xorRow (m : SparseMatrix) (s : ℕ) (indices : List ℕ) (b : Block) :
    List ℕ × Block :=
  (symmDiff (m.row s) indices, b.xor (m.val s))

/-- The insertion loop of Go `addEquation`, fuelled (`none` = fuel ran out;
the Go loop's termination is proved separately, so with the canonical fuel
the `none` case is unreachable for well-formed inputs).  While the candidate
is nonempty and its leading row is occupied: reduce the candidate against the
row if it is at least as long, otherwise swap it with the stored row and
continue with the displaced equation.  A surviving candidate is stored at the
row named by its leading index. -/
def addEqLoop : ℕ → SparseMatrix → List ℕ → Block → Option SparseMatrix
  | 0, _, _, _ => none
  | fuel + 1, m, components, b =>
    match components with
    | [] => some m
    | s :: rest =>
      if m.row s = [] then
        some { m with coeff := m.coeff.set s (s :: rest), v := m.v.set s b }
      else if (s :: rest).length ≥ (m.row s).length then
        addEqLoop fuel m (symmDiff (m.row s) (s :: rest)) (b.xor (m.val s))
      else
        addEqLoop fuel
          { m with coeff := m.coeff.set s (s :: rest), v := m.v.set s b }
          (m.row s) (m.val s)

/-- Go `sparseMatrix.addEquation`.  Fuel `2·L + 2` always suffices (see the
termination theorem); on fuel exhaustion — unreachable for well-formed
inputs — the matrix is returned unchanged. -/
def SparseMatrix.addEquation (m : SparseMatrix) (components : List ℕ) (b : Block) :
    SparseMatrix :=
  (addEqLoop (2 * m.L + 2) m components b).getD m

/-- Go `sparseMatrix.determined`: true iff every row is occupied. -/
def SparseMatrix.determined (m : SparseMatrix) : Bool :=
  m.coeff.all (fun r => decide (r ≠ []))

/-- `n`-fold XOR of `vi` into `b` (the inner `reduce` loop XORs once per
matching tail position; tails are duplicate-free in well-formed matrices, so
`n ≤ 1` there). -/
def xorTimes : ℕ → Block → Block → Block
  | 0, _, b => b
  | n + 1, vi, b => xorTimes n vi (b.xor vi)

/-- One outer iteration of Go `reduce` (index `i`): for every row `j < i`,
XOR `v[i]` into `v[j]` once per occurrence of `coeff[i][0]` in the tail
`coeff[j][1:]`; then truncate `coeff[i]` to its leading element.
(`coeff[i][0]` of an empty row — which would panic in Go — is modelled by a
default of 0; `reduce` is only invoked on determined matrices.) -/
def SparseMatrix.reduceRound (m : SparseMatrix) (i : ℕ) : SparseMatrix :=
  let lead := (m.row i).getD 0 0
  let vi := m.val i
  { coeff := m.coeff.set i ((m.row i).take 1),
    v := (List.range m.v.length).map (fun j =>
      if j < i then xorTimes (((m.row j).drop 1).count lead) vi (m.val j)
      else m.val j) }

/-- Go `sparseMatrix.reduce`: back-substitution from the last row upwards. -/
def SparseMatrix.reduce (m : SparseMatrix) : SparseMatrix :=
  (List.range m.coeff.length).reverse.foldl (fun acc i => acc.reduceRound i) m

/-- Go `sparseMatrix.reconstruct`: concatenate the first `lenLong` bytes of
the first `numLong` solved rows and the first `lenShort` bytes of the next
`numShort` (Go's slice `v[i].data[0:n]` is modelled by `take`; in every use
proved about below, the data is long enough for the two to agree). -/
def SparseMatrix.reconstruct (m : SparseMatrix)
    (totalLength lenLong lenShort numLong numShort : ℕ) : Bytes :=
  (((List.range numLong).map (fun i => (m.val i).data.take lenLong)).flatten ++
    ((List.range' numLong numShort).map (fun i => (m.val i).data.take lenShort)).flatten)

/-! ## Well-formedness of the matrix and the triangularity invariant -/

/-- Validity of an equation's index list against an `L`-row matrix: strictly
ascending and in `[0, L)`. -/
def ValidEq (L : ℕ) (c : List ℕ) : Prop :=
  c.Sorted (· < ·) ∧ ∀ x ∈ c, x < L

instance (L : ℕ) (c : List ℕ) : Decidable (ValidEq L c) := by
  unfold ValidEq; infer_instance

/-- The triangularity invariant of the solver: value and coefficient columns
have the same height and every stored row is a valid equation whose leading
index names its own row. -/
def SparseMatrix.WF (m : SparseMatrix) : Prop :=
  m.v.length = m.coeff.length ∧
  ∀ i < m.L, (m.row i = [] ∨ (m.row i).head? = some i) ∧ ValidEq m.L (m.row i)

instance (m : SparseMatrix) : Decidable m.WF := by
  unfold SparseMatrix.WF; infer_instance

theorem SparseMatrix.row_out (m : SparseMatrix) (i : ℕ) (h : ¬ i < m.L) :
    m.row i = [] := by
  unfold SparseMatrix.row
  rw [List.getD_eq_getElem?_getD, List.getElem?_eq_none (by
    unfold SparseMatrix.L at h; omega)]
  rfl

theorem SparseMatrix.WF.row_head {m : SparseMatrix} (h : m.WF) (i : ℕ)
    (hne : m.row i ≠ []) : (m.row i).head? = some i := by
  by_cases hi : i < m.L
  · rcases (h.2 i hi).1 with h0 | h0
    · exact absurd h0 hne
    · exact h0
  · exact absurd (m.row_out i hi) hne

theorem SparseMatrix.WF.row_valid {m : SparseMatrix} (h : m.WF) (i : ℕ) :
    ValidEq m.L (m.row i) := by
  by_cases hi : i < m.L
  · exact (h.2 i hi).2
  · rw [m.row_out i hi]
    exact ⟨List.sorted_nil, by simp⟩

theorem getD_set_self {α : Type} (l : List α) (i : ℕ) (a d : α)
    (h : i < l.length) : (l.set i a).getD i d = a := by
  rw [List.getD_eq_getElem?_getD, List.getElem?_set_eq_of_lt a h]
  rfl

theorem getD_set_ne {α : Type} (l : List α) (i j : ℕ) (a d : α)
    (h : i ≠ j) : (l.set i a).getD j d = l.getD j d := by
  rw [List.getD_eq_getElem?_getD, List.getElem?_set_ne h, ← List.getD_eq_getElem?_getD]

/-- Elements of the symmetric difference come from one of the operands. -/
theorem symmDiff_subset (xs ys : List ℕ) :
    ∀ x ∈ symmDiff xs ys, x ∈ xs ∨ x ∈ ys := by
  induction xs, ys using symmDiff.induct with
  | case1 ys => simp [symmDiff]
  | case2 x xs => simp [symmDiff]
  | case3 x xs ys ih =>
    intro a ha
    rw [symmDiff, if_pos rfl] at ha
    rcases ih a ha with h | h
    · exact Or.inl (List.mem_cons_of_mem _ h)
    · exact Or.inr (List.mem_cons_of_mem _ h)
  | case4 x xs y ys hne hlt ih =>
    intro a ha
    rw [symmDiff, if_neg hne, if_pos hlt] at ha
    rcases List.mem_cons.mp ha with h | h
    · exact Or.inl (h ▸ List.mem_cons_self _ _)
    · rcases ih a h with h' | h'
      · exact Or.inl (List.mem_cons_of_mem _ h')
      · exact Or.inr h'
  | case5 x xs y ys hne hlt ih =>
    intro a ha
    rw [symmDiff, if_neg hne, if_neg hlt] at ha
    rcases List.mem_cons.mp ha with h | h
    · exact Or.inr (h ▸ List.mem_cons_self _ _)
    · rcases ih a h with h' | h'
      · exact Or.inl h'
      · exact Or.inr (List.mem_cons_of_mem _ h')

/-- The sorted-merge walk produces a sorted list from sorted inputs. -/
theorem symmDiff_sorted {xs ys : List ℕ} (hx : xs.Sorted (· < ·))
    (hy : ys.Sorted (· < ·)) : (symmDiff xs ys).Sorted (· < ·) := by
  induction xs, ys using symmDiff.induct with
  | case1 ys => simpa [symmDiff] using hy
  | case2 x xs => simpa [symmDiff] using hx
  | case3 x xs ys ih =>
    rw [symmDiff, if_pos rfl]
    exact ih (List.sorted_cons.mp hx).2 (List.sorted_cons.mp hy).2
  | case4 x xs y ys hne hlt ih =>
    rw [symmDiff, if_neg hne, if_pos hlt]
    rw [List.sorted_cons]
    refine ⟨?_, ih (List.sorted_cons.mp hx).2 hy⟩
    intro b hb
    rcases symmDiff_subset _ _ b hb with h | h
    · exact (List.sorted_cons.mp hx).1 b h
    · rcases List.mem_cons.mp h with h' | h'
      · omega
      · have := (List.sorted_cons.mp hy).1 b h'
        omega
  | case5 x xs y ys hne hlt ih =>
    rw [symmDiff, if_neg hne, if_neg hlt]
    rw [List.sorted_cons]
    refine ⟨?_, ih hx (List.sorted_cons.mp hy).2⟩
    intro b hb
    rcases symmDiff_subset _ _ b hb with h | h
    · rcases List.mem_cons.mp h with h' | h'
      · omega
      · have := (List.sorted_cons.mp hx).1 b h'
        omega
    · exact (List.sorted_cons.mp hy).1 b h

theorem ValidEq.head_lt {L s : ℕ} {rest : List ℕ} (h : ValidEq L (s :: rest)) :
    s < L := h.2 s (List.mem_cons_self _ _)

theorem ValidEq.tail_gt {L s : ℕ} {rest : List ℕ} (h : ValidEq L (s :: rest)) :
    ∀ x ∈ rest, s < x := (List.sorted_cons.mp h.1).1

theorem SparseMatrix.L_update (m : SparseMatrix) (s : ℕ) (c : List ℕ) (b : Block) :
    SparseMatrix.L { m with coeff := m.coeff.set s c, v := m.v.set s b } = m.L := by
  simp [SparseMatrix.L]

theorem SparseMatrix.row_update_self (m : SparseMatrix) (s : ℕ) (c : List ℕ)
    (b : Block) (hs : s < m.L) :
    SparseMatrix.row { m with coeff := m.coeff.set s c, v := m.v.set s b } s = c :=
  getD_set_self _ _ _ _ hs

theorem SparseMatrix.row_update_ne (m : SparseMatrix) (s i : ℕ) (c : List ℕ)
    (b : Block) (hne : s ≠ i) :
    SparseMatrix.row { m with coeff := m.coeff.set s c, v := m.v.set s b } i =
      m.row i :=
  getD_set_ne _ _ _ _ _ hne

/-- The insertion loop never changes the shape of the matrix. -/
theorem addEqLoop_lengths : ∀ (fuel : ℕ) (m : SparseMatrix) (c : List ℕ) (b : Block)
    (m' : SparseMatrix), addEqLoop fuel m c b = some m' →
    m'.coeff.length = m.coeff.length ∧ m'.v.length = m.v.length := by
  intro fuel
  induction fuel with
  | zero => intro m c b m' h; simp [addEqLoop] at h
  | succ n ih =>
    intro m c b m' h
    cases c with
    | nil =>
      rw [addEqLoop] at h
      cases h
      exact ⟨rfl, rfl⟩
    | cons s rest =>
      rw [addEqLoop] at h
      split at h
      · cases h
        constructor <;> simp
      · split at h
        · exact ih _ _ _ _ h
        · have h2 := ih _ _ _ _ h
          simpa using h2

theorem addEqLoop_L {fuel : ℕ} {m : SparseMatrix} {c : List ℕ} {b : Block}
    {m' : SparseMatrix} (h : addEqLoop fuel m c b = some m') : m'.L = m.L :=
  (addEqLoop_lengths fuel m c b m' h).1

/-- The insertion loop preserves the triangularity invariant. -/
theorem addEqLoop_wf : ∀ (fuel : ℕ) (m : SparseMatrix) (c : List ℕ) (b : Block)
    (m' : SparseMatrix), addEqLoop fuel m c b = some m' → m.WF →
    ValidEq m.L c → m'.WF := by
  intro fuel
  induction fuel with
  | zero => intro m c b m' h; simp [addEqLoop] at h
  | succ n ih =>
    intro m c b m' h hm hc
    cases c with
    | nil =>
      rw [addEqLoop] at h
      cases h
      exact hm
    | cons s rest =>
      have hs : s < m.L := hc.head_lt
      have hsv : s < m.v.length := by
        have := hm.1
        unfold SparseMatrix.L at hs
        omega
      rw [addEqLoop] at h
      split at h
      · -- store at the empty row s
        cases h
        constructor
        · simp [hm.1]
        · intro i hi
          rw [SparseMatrix.L_update] at hi ⊢
          by_cases hins : s = i
          · subst hins
            rw [SparseMatrix.row_update_self _ _ _ _ hs]
            exact ⟨Or.inr rfl, hc⟩
          · rw [SparseMatrix.row_update_ne _ _ _ _ _ hins]
            exact (hm.2 i hi)
      · split at h
        · -- reduce the candidate against row s
          next hrow hlen =>
          refine ih _ _ _ _ h hm ⟨symmDiff_sorted (hm.row_valid s).1 hc.1, ?_⟩
          intro x hx
          rcases symmDiff_subset _ _ x hx with h' | h'
          · exact (hm.row_valid s).2 x h'
          · exact hc.2 x h'
        · -- swap the candidate with row s, continue with the old row
          next hrow hlen =>
          have hm2 : SparseMatrix.WF
              { m with coeff := m.coeff.set s (s :: rest), v := m.v.set s b } := by
            constructor
            · simp [hm.1]
            · intro i hi
              rw [SparseMatrix.L_update] at hi ⊢
              by_cases hins : s = i
              · subst hins
                rw [SparseMatrix.row_update_self _ _ _ _ hs]
                exact ⟨Or.inr rfl, hc⟩
              · rw [SparseMatrix.row_update_ne _ _ _ _ _ hins]
                exact (hm.2 i hi)
          refine ih _ _ _ _ h hm2 ?_
          rw [SparseMatrix.L_update]
          exact hm.row_valid s

/-- Loop measure: strictly decreases along every non-terminal iteration. -/
def eqMeasure (m : SparseMatrix) (c : List ℕ) : ℕ :=
  match c with
  | [] => 1
  | s :: rest => 2 * (m.L - s) + (if (s :: rest).length ≥ (m.row s).length then 1 else 2)

/-- The insertion loop terminates within the canonical fuel: with
`eqMeasure` much fuel, the loop exits through one of its return branches. -/
theorem addEqLoop_some : ∀ (fuel : ℕ) (m : SparseMatrix) (c : List ℕ) (b : Block),
    m.WF → ValidEq m.L c → eqMeasure m c ≤ fuel →
    (addEqLoop fuel m c b).isSome := by
  intro fuel
  induction fuel with
  | zero =>
    intro m c b _ _ hμ
    exfalso
    cases c with
    | nil => simp [eqMeasure] at hμ
    | cons s rest =>
      simp only [eqMeasure] at hμ
      split at hμ <;> omega
  | succ n ih =>
    intro m c b hm hc hμ
    cases c with
    | nil => rw [addEqLoop]; rfl
    | cons s rest =>
      have hs : s < m.L := hc.head_lt
      rw [addEqLoop]
      split
      · rfl
      · split
        · -- xorRow step: leading index strictly increases (or the list empties)
          next hrow hlen =>
          have hhead := hm.row_head s hrow
          obtain ⟨tail, htail⟩ : ∃ tail, m.row s = s :: tail := by
            cases hx : m.row s with
            | nil => exact absurd hx hrow
            | cons a t =>
              rw [hx] at hhead
              simp at hhead
              exact ⟨t, by rw [hhead]⟩
          have hsd : symmDiff (m.row s) (s :: rest) = symmDiff tail rest := by
            rw [htail, symmDiff, if_pos rfl]
          have hgt : ∀ x ∈ symmDiff tail rest, s < x := by
            intro x hx
            rcases symmDiff_subset _ _ x hx with h' | h'
            · have := (hm.row_valid s).1
              rw [htail] at this
              exact (List.sorted_cons.mp this).1 x h'
            · exact hc.tail_gt x h'
          apply ih _ _ _ hm
          · constructor
            · exact symmDiff_sorted (hm.row_valid s).1 hc.1
            · intro x hx
              rcases symmDiff_subset _ _ x hx with h' | h'
              · exact (hm.row_valid s).2 x h'
              · exact hc.2 x h'
          · -- measure decreased
            rw [hsd]
            cases hy : symmDiff tail rest with
            | nil =>
              simp only [eqMeasure]
              simp only [eqMeasure, hsd, hy] at hμ ⊢
              omega
            | cons s' rest' =>
              have hs' : s < s' := by
                have := hgt s' (by rw [hy]; exact List.mem_cons_self _ _)
                omega
              simp only [eqMeasure] at hμ ⊢
              split
              · omega
              · split at hμ <;> omega
        · -- swap step: same leading index, but the next step must reduce
          next hrow hlen =>
          have hsv : s < m.v.length := by
            have := hm.1
            unfold SparseMatrix.L at hs
            omega
          have hm2 : SparseMatrix.WF
              { m with coeff := m.coeff.set s (s :: rest), v := m.v.set s b } := by
            constructor
            · simp [hm.1]
            · intro i hi
              rw [SparseMatrix.L_update] at hi ⊢
              by_cases hins : s = i
              · subst hins
                rw [SparseMatrix.row_update_self _ _ _ _ hs]
                exact ⟨Or.inr rfl, hc⟩
              · rw [SparseMatrix.row_update_ne _ _ _ _ _ hins]
                exact (hm.2 i hi)
          obtain ⟨tail, htail⟩ : ∃ tail, m.row s = s :: tail := by
            cases hx : m.row s with
            | nil => exact absurd hx hrow
            | cons a t =>
              have hhead := hm.row_head s hrow
              rw [hx] at hhead
              simp at hhead
              exact ⟨t, by rw [hhead]⟩
          apply ih _ _ _ hm2
          · rw [SparseMatrix.L_update]
            exact hm.row_valid s
          · rw [htail]
            simp only [eqMeasure, SparseMatrix.L_update]
            rw [SparseMatrix.row_update_self _ _ _ _ hs]
            rw [htail] at hlen
            simp only [eqMeasure] at hμ
            rw [htail, if_neg hlen] at hμ
            rw [if_pos (by simp at hlen ⊢; omega)]
            omega

/-- The insertion loop never empties an occupied row, and it either leaves
the set of occupied rows unchanged (redundant equation, silently discarded)
or occupies exactly one previously empty row. -/
theorem addEqLoop_occupied : ∀ (fuel : ℕ) (m : SparseMatrix) (c : List ℕ)
    (b : Block) (m' : SparseMatrix), addEqLoop fuel m c b = some m' → m.WF →
    ValidEq m.L c →
    ((∀ i, m'.row i ≠ [] ↔ m.row i ≠ []) ∨
      ∃ s, m.row s = [] ∧ ∀ i, (m'.row i ≠ [] ↔ (m.row i ≠ [] ∨ i = s))) := by
  intro fuel
  induction fuel with
  | zero => intro m c b m' h; simp [addEqLoop] at h
  | succ n ih =>
    intro m c b m' h hm hc
    cases c with
    | nil =>
      rw [addEqLoop] at h
      cases h
      exact Or.inl (fun i => Iff.rfl)
    | cons s rest =>
      have hs : s < m.L := hc.head_lt
      rw [addEqLoop] at h
      split at h
      · next hrow =>
        cases h
        refine Or.inr ⟨s, hrow, ?_⟩
        intro i
        by_cases hins : s = i
        · subst hins
          rw [SparseMatrix.row_update_self _ _ _ _ hs]
          simp
        · rw [SparseMatrix.row_update_ne _ _ _ _ _ hins]
          constructor
          · exact fun hne => Or.inl hne
          · rintro (hne | hne)
            · exact hne
            · exact absurd hne.symm hins
      · split at h
        · next hrow hlen =>
          exact ih _ _ _ _ h hm ⟨symmDiff_sorted (hm.row_valid s).1 hc.1, by
            intro x hx
            rcases symmDiff_subset _ _ x hx with h' | h'
            · exact (hm.row_valid s).2 x h'
            · exact hc.2 x h'⟩
        · next hrow hlen =>
          have hm2 : SparseMatrix.WF
              { m with coeff := m.coeff.set s (s :: rest), v := m.v.set s b } := by
            constructor
            · simp [hm.1]
            · intro i hi
              rw [SparseMatrix.L_update] at hi ⊢
              by_cases hins : s = i
              · subst hins
                rw [SparseMatrix.row_update_self _ _ _ _ hs]
                exact ⟨Or.inr rfl, hc⟩
              · rw [SparseMatrix.row_update_ne _ _ _ _ _ hins]
                exact (hm.2 i hi)
          have hsame : ∀ i,
              (SparseMatrix.row
                  { m with coeff := m.coeff.set s (s :: rest), v := m.v.set s b }
                  i ≠ []) ↔
                (m.row i ≠ []) := by
            intro i
            by_cases hins : s = i
            · subst hins
              rw [SparseMatrix.row_update_self _ _ _ _ hs]
              simp [hrow]
            · rw [SparseMatrix.row_update_ne _ _ _ _ _ hins]
          have hrec := ih _ _ _ _ h hm2 (by
            rw [SparseMatrix.L_update]; exact hm.row_valid s)
          rcases hrec with h' | ⟨t, ht, h'⟩
          · exact Or.inl (fun i => (h' i).trans (hsame i))
          · refine Or.inr ⟨t, ?_, ?_⟩
            · by_contra hne
              exact (hsame t).mpr hne ht
            · intro i
              rw [h' i, hsame i]

/-- Go `addEquation` in terms of the loop, for well-formed inputs. -/
theorem addEquation_eq_loop (m : SparseMatrix) (c : List ℕ) (b : Block)
    (hm : m.WF) (hc : ValidEq m.L c) :
    some (m.addEquation c b) = addEqLoop (2 * m.L + 2) m c b := by
  have hμ : eqMeasure m c ≤ 2 * m.L + 2 := by
    cases c with
    | nil => simp [eqMeasure]
    | cons s rest =>
      simp only [eqMeasure]
      have : m.L - s ≤ m.L := Nat.sub_le _ _
      split <;> omega
  have hsome := addEqLoop_some (2 * m.L + 2) m c b hm hc hμ
  unfold SparseMatrix.addEquation
  cases hx : addEqLoop (2 * m.L + 2) m c b with
  | none => rw [hx] at hsome; simp at hsome
  | some m₂ => simp

/-- `addEquation` preserves the triangularity invariant. -/
theorem addEquation_wf (m : SparseMatrix) (c : List ℕ) (b : Block)
    (hm : m.WF) (hc : ValidEq m.L c) : (m.addEquation c b).WF := by
  have h := addEquation_eq_loop m c b hm hc
  exact addEqLoop_wf _ _ _ _ _ h.symm hm hc

theorem addEquation_L (m : SparseMatrix) (c : List ℕ) (b : Block)
    (hm : m.WF) (hc : ValidEq m.L c) : (m.addEquation c b).L = m.L := by
  have h := addEquation_eq_loop m c b hm hc
  exact addEqLoop_L h.symm

/-- A fresh `L`-row decoder matrix (`make([][]int, L)` / `make([]block, L)`). -/
def freshMatrix (L : ℕ) : SparseMatrix :=
  { coeff := List.replicate L [], v := List.replicate L Block.zero }

theorem freshMatrix_wf (L : ℕ) : (freshMatrix L).WF := by
  constructor
  · simp [freshMatrix]
  · intro i hi
    have hrow : (freshMatrix L).row i = [] := by
      unfold SparseMatrix.row freshMatrix
      rw [List.getD_eq_getElem?_getD, List.getElem?_replicate]
      split <;> rfl
    rw [hrow]
    exact ⟨Or.inl rfl, List.sorted_nil, by simp⟩

/-- Left fold of `addEquation` over a list of equations. -/
def addEquations (m : SparseMatrix) (eqs : List (List ℕ × Block)) : SparseMatrix :=
  eqs.foldl (fun acc e => acc.addEquation e.1 e.2) m

theorem addEquations_wf (m : SparseMatrix) (eqs : List (List ℕ × Block))
    (hm : m.WF) (hv : ∀ e ∈ eqs, ValidEq m.L e.1) :
    (addEquations m eqs).WF ∧ (addEquations m eqs).L = m.L := by
  induction eqs generalizing m with
  | nil => exact ⟨hm, rfl⟩
  | cons e rest ih =>
    have he : ValidEq m.L e.1 := hv e (List.mem_cons_self _ _)
    have h1 : (m.addEquation e.1 e.2).WF := addEquation_wf m e.1 e.2 hm he
    have h2 : (m.addEquation e.1 e.2).L = m.L := addEquation_L m e.1 e.2 hm he
    have ih' := ih (m.addEquation e.1 e.2) h1 (by
      rw [h2]
      intro x hx
      exact hv x (List.mem_cons_of_mem _ hx))
    exact ⟨ih'.1, ih'.2.trans h2⟩

/-- C2: after any sequence of `addEquation` calls on a fresh `L`-row matrix,
where each call's index list is sorted strictly ascending with all elements
in `[0, L)`: every row is empty or leads with its own index, and every
non-empty row is strictly ascending with all elements in `[0, L)`. -/
theorem addEquation_invariant (L : ℕ) (eqs : List (List ℕ × Block))
    (hv : ∀ e ∈ eqs, e.1.Sorted (· < ·) ∧ ∀ x ∈ e.1, x < L) :
    ∀ i, (addEquations (freshMatrix L) eqs).row i = [] ∨
      (((addEquations (freshMatrix L) eqs).row i).head? = some i ∧
        ((addEquations (freshMatrix L) eqs).row i).Sorted (· < ·) ∧
        ∀ x ∈ (addEquations (freshMatrix L) eqs).row i, x < L) := by
  have hL : (freshMatrix L).L = L := by simp [freshMatrix, SparseMatrix.L]
  have h := addEquations_wf (freshMatrix L) eqs (freshMatrix_wf L)
    (by rw [hL]; exact hv)
  have hL' : (addEquations (freshMatrix L) eqs).L = L := h.2.trans hL
  intro i
  by_cases hi : i < (addEquations (freshMatrix L) eqs).L
  · rcases h.1.2 i hi with ⟨hhead, hval⟩
    rcases hhead with h0 | h0
    · exact Or.inl h0
    · exact Or.inr ⟨h0, hval.1, fun x hx => hL' ▸ hval.2 x hx⟩
  · exact Or.inl ((addEquations (freshMatrix L) eqs).row_out i hi)

/-- C2 witness: the solver scenario from the spec — a fresh 2-row matrix
receiving `([0], [1])` then `([0,1], [2])` — instantiated at row 1. -/
theorem addEquation_invariant_witness :
    (addEquations (freshMatrix 2)
        [([0], ⟨[1], 0⟩), ([0, 1], ⟨[2], 0⟩)]).row 1 = [] ∨
      (((addEquations (freshMatrix 2)
          [([0], ⟨[1], 0⟩), ([0, 1], ⟨[2], 0⟩)]).row 1).head? = some 1 ∧
        ((addEquations (freshMatrix 2)
          [([0], ⟨[1], 0⟩), ([0, 1], ⟨[2], 0⟩)]).row 1).Sorted (· < ·) ∧
        ∀ x ∈ (addEquations (freshMatrix 2)
          [([0], ⟨[1], 0⟩), ([0, 1], ⟨[2], 0⟩)]).row 1, x < 2) :=
  addEquation_invariant 2 [([0], ⟨[1], 0⟩), ([0, 1], ⟨[2], 0⟩)] (by decide) 1

/-- C3: on a well-formed matrix, `addEquation`'s insertion loop terminates
within the canonical fuel for every sorted in-range equation, and the
resulting matrix either occupies exactly one previously empty row or — when
the incoming equation reduced away as redundant — has the occupied set
unchanged; the solver never fails. -/
theorem addEquation_terminates (m : SparseMatrix) (c : List ℕ) (b : Block)
    (hm : m.WF) (hc : c.Sorted (· < ·)) (hb : ∀ x ∈ c, x < m.L) :
    ∃ m', addEqLoop (2 * m.L + 2) m c b = some m' ∧
      m.addEquation c b = m' ∧
      ((∀ i, m'.row i ≠ [] ↔ m.row i ≠ []) ∨
        ∃ s, m.row s = [] ∧ ∀ i, (m'.row i ≠ [] ↔ (m.row i ≠ [] ∨ i = s))) := by
  have hc' : ValidEq m.L c := ⟨hc, hb⟩
  have hloop := addEquation_eq_loop m c b hm hc'
  exact ⟨m.addEquation c b, hloop.symm, rfl,
    addEqLoop_occupied _ _ _ _ _ hloop.symm hm hc'⟩

/-- C3 witness: inserting `([0,1], [2])` into the 2-row matrix already
holding `([0], [1])` — the redundant-free concrete case from the spec. -/
theorem addEquation_terminates_witness :
    ∃ m', addEqLoop (2 * (addEquations (freshMatrix 2) [([0], ⟨[1], 0⟩)]).L + 2)
        (addEquations (freshMatrix 2) [([0], ⟨[1], 0⟩)]) [0, 1] ⟨[2], 0⟩ = some m' ∧
      (addEquations (freshMatrix 2) [([0], ⟨[1], 0⟩)]).addEquation [0, 1] ⟨[2], 0⟩ = m' ∧
      ((∀ i, m'.row i ≠ [] ↔
          (addEquations (freshMatrix 2) [([0], ⟨[1], 0⟩)]).row i ≠ []) ∨
        ∃ s, (addEquations (freshMatrix 2) [([0], ⟨[1], 0⟩)]).row s = [] ∧
          ∀ i, (m'.row i ≠ [] ↔
            ((addEquations (freshMatrix 2) [([0], ⟨[1], 0⟩)]).row i ≠ [] ∨ i = s))) :=
  addEquation_terminates (addEquations (freshMatrix 2) [([0], ⟨[1], 0⟩)])
    [0, 1] ⟨[2], 0⟩ (by decide) (by decide) (by decide)

/-! ## pickDegree and the binary search it relies on -/

/-- Go `sort.Search`'s loop: binary search for the smallest index in `[i, j)`
satisfying `f` (all of `[i, j)` failing yields `j`).  The interval shrinks
strictly every round, so fuel `j - i` suffices; fuelled structurally to keep
the definition kernel-computable. -/
def searchGo (f : ℕ → Bool) : ℕ → ℕ → ℕ → ℕ
  | 0, i, _ => i
  | fuel + 1, i, j =>
    if i < j then
      if f ((i + j) / 2) then searchGo f fuel i ((i + j) / 2)
      else searchGo f fuel ((i + j) / 2 + 1) j
    else i

/-- Go `sort.SearchFloat64s(a, x)`: smallest index `i` with `a[i] ≥ x`.
The drawn float and the CDF entries are embedded as rationals. -/
def searchFloat64s (a : List ℚ) (x : ℚ) : ℕ :=
  searchGo (fun i => decide (x ≤ a.getD i 0)) a.length 0 a.length

/-- Go `pickDegree`, with the uniform draw `r ∈ [0,1)` passed explicitly.
`cdf[d]` with `d = len(cdf)` — reached when every entry is below `r` — is an
out-of-range access in Go (panic), modelled by `none`. -/
def pickDegree (r : ℚ) (cdf : List ℚ) : Option ℕ :=
  match cdf.get? (searchFloat64s cdf r) with
  | none => none
  | some v =>
    if v > r then some (searchFloat64s cdf r)
    else if searchFloat64s cdf r < cdf.length - 1 then some (searchFloat64s cdf r + 1)
    else some (cdf.length - 1)

theorem searchGo_spec (f : ℕ → Bool) : ∀ (fuel i j : ℕ), i ≤ j →
    j - i ≤ fuel →
    (∀ k l, i ≤ k → k ≤ l → l < j → f k = true → f l = true) →
    (∀ k < i, f k = false) →
    (i ≤ searchGo f fuel i j ∧ searchGo f fuel i j ≤ j ∧
      (∀ k < searchGo f fuel i j, f k = false) ∧
      (searchGo f fuel i j < j → f (searchGo f fuel i j) = true)) := by
  intro fuel
  induction fuel with
  | zero =>
    intro i j hle hfuel hmono hlow
    have : i = j := by omega
    subst this
    rw [searchGo]
    exact ⟨le_refl _, le_refl _, hlow, by omega⟩
  | succ n ih =>
    intro i j hle hfuel hmono hlow
    rw [searchGo]
    by_cases hij : i < j
    · rw [if_pos hij]
      by_cases hm : f ((i + j) / 2) = true
      · rw [if_pos hm]
        have hrec := ih i ((i + j) / 2) (by omega) (by omega)
          (fun k l hk hkl hl => hmono k l hk hkl (by omega)) hlow
        refine ⟨hrec.1, by omega, hrec.2.2.1, ?_⟩
        intro hlt
        by_cases hx : searchGo f n i ((i + j) / 2) < (i + j) / 2
        · exact hrec.2.2.2 hx
        · have hz : searchGo f n i ((i + j) / 2) = (i + j) / 2 := by omega
          rw [hz]
          exact hm
      · rw [if_neg hm]
        have hm' : f ((i + j) / 2) = false := by
          cases hfk : f ((i + j) / 2)
          · rfl
          · exact absurd hfk hm
        have hlow' : ∀ k < (i + j) / 2 + 1, f k = false := by
          intro k hk
          by_cases hki : k < i
          · exact hlow k hki
          · by_contra hkt
            have hkt' : f k = true := by
              cases hfk : f k
              · exact absurd hfk hkt
              · rfl
            have := hmono k ((i + j) / 2) (by omega) (by omega) (by omega) hkt'
            rw [this] at hm'
            cases hm'
        have hrec := ih ((i + j) / 2 + 1) j (by omega) (by omega)
          (fun k l hk hkl hl => hmono k l (by omega) hkl hl) hlow'
        exact ⟨by omega, hrec.2.1, hrec.2.2.1, hrec.2.2.2⟩
    · rw [if_neg hij]
      exact ⟨le_refl _, hle, hlow, by omega⟩

/-- The binary search of `pickDegree` finds the least index whose CDF entry
is at least the draw. -/
theorem searchFloat64s_spec (a : List ℚ) (x : ℚ) (hs : a.Sorted (· ≤ ·)) :
    searchFloat64s a x ≤ a.length ∧
    (∀ k < searchFloat64s a x, a.getD k 0 < x) ∧
    (searchFloat64s a x < a.length → x ≤ a.getD (searchFloat64s a x) 0) := by
  have hmono : ∀ k l, 0 ≤ k → k ≤ l → l < a.length →
      (decide (x ≤ a.getD k 0) = true) → (decide (x ≤ a.getD l 0) = true) := by
    intro k l _ hkl hl hk
    rw [decide_eq_true_iff] at hk ⊢
    have hkl' : a.getD k 0 ≤ a.getD l 0 := by
      rcases Nat.eq_or_lt_of_le hkl with h | h
      · rw [h]
      · have hk' : k < a.length := by omega
        rw [List.getD_eq_getElem _ _ hk', List.getD_eq_getElem _ _ hl]
        exact List.pairwise_iff_getElem.mp hs k l hk' hl h
    exact hk.trans hkl'
  have h := searchGo_spec (fun i => decide (x ≤ a.getD i 0)) a.length 0 a.length
    (by omega) (by omega) hmono (by omega)
  refine ⟨h.2.1, ?_, ?_⟩
  · intro k hk
    have hf := h.2.2.1 k hk
    exact not_le.mp (of_decide_eq_false hf)
  · intro hlt
    exact of_decide_eq_true (h.2.2.2 hlt)

/-- C6 counterexample: on the ascending CDF `[1/2, 1/2, 1]` with draw
`r = 1/2 ∈ [0,1)`, the smallest index with `cdf[i] > r` is 2, but the
equal-value fall-through in `pickDegree` returns index 1 (whose entry equals
`r`). -/
theorem pickDegree_counterexample :
    ([(1 : ℚ)/2, 1/2, 1].Sorted (· ≤ ·)) ∧
    (0 ≤ (1 : ℚ)/2) ∧ ((1 : ℚ)/2 < 1) ∧
    pickDegree ((1 : ℚ)/2) [(1 : ℚ)/2, 1/2, 1] = some 1 ∧
    ¬ (([(1 : ℚ)/2, 1/2, 1].getD 1 0) > (1 : ℚ)/2) ∧
    (([(1 : ℚ)/2, 1/2, 1].getD 2 0) > (1 : ℚ)/2) := by
  refine ⟨?_, by norm_num, by norm_num, ?_, by norm_num, by norm_num⟩
  · simp [List.sorted_cons]
    norm_num
  · norm_num [pickDegree, searchFloat64s, searchGo]

/-- C6 (amended): let `d` be the smallest index with `cdf[d] ≥ r` (the
binary-search result).  If `cdf[d] > r`, `pickDegree` returns `d`, which is
then the smallest index with `cdf[i] > r`; if `cdf[d] = r` exactly it falls
through to `d+1` capped at `len(cdf)-1` (an index that need not satisfy
`cdf[i] > r`); and if every entry is below `r` it reads `cdf[len(cdf)]` out
of range (panic) rather than saturating. -/
theorem pickDegree_spec (cdf : List ℚ) (r : ℚ) (hs : cdf.Sorted (· ≤ ·)) :
    (∃ d, d < cdf.length ∧ (∀ i < d, cdf.getD i 0 < r) ∧ r ≤ cdf.getD d 0 ∧
      pickDegree r cdf =
        some (if r < cdf.getD d 0 then d else min (d + 1) (cdf.length - 1)) ∧
      (r < cdf.getD d 0 → ∀ i < d, ¬ (r < cdf.getD i 0))) ∨
    ((∀ i < cdf.length, cdf.getD i 0 < r) ∧ pickDegree r cdf = none) := by
  have h := searchFloat64s_spec cdf r hs
  by_cases hd : searchFloat64s cdf r < cdf.length
  · left
    refine ⟨searchFloat64s cdf r, hd, h.2.1, h.2.2 hd, ?_, ?_⟩
    · unfold pickDegree
      have hget : cdf.get? (searchFloat64s cdf r) =
          some (cdf.getD (searchFloat64s cdf r) 0) := by
        rw [List.get?_eq_getElem?, List.getElem?_eq_getElem hd,
          List.getD_eq_getElem _ _ hd]
      rw [hget]
      simp only
      by_cases hv : cdf.getD (searchFloat64s cdf r) 0 > r
      · rw [if_pos hv, if_pos hv]
      · rw [if_neg hv, if_neg hv]
        by_cases hlast : searchFloat64s cdf r < cdf.length - 1
        · rw [if_pos hlast]
          congr 1
          omega
        · rw [if_neg hlast]
          congr 1
          omega
    · intro _ i hi
      have := h.2.1 i hi
      exact not_lt.mpr this.le
  · right
    have hdl : searchFloat64s cdf r = cdf.length := by
      have := h.1
      omega
    constructor
    · intro i hi
      exact h.2.1 i (by omega)
    · unfold pickDegree
      have hget : cdf.get? (searchFloat64s cdf r) = none := by
        rw [List.get?_eq_getElem?, List.getElem?_eq_none]
        omega
      rw [hget]

/-- C6 witness: `pickDegree` on the ascending CDF `[1/2, 1]` with draw
`1/4`, via the characterization theorem. -/
theorem pickDegree_spec_witness :
    (∃ d, d < ([(1 : ℚ)/2, 1] : List ℚ).length ∧
      (∀ i < d, ([(1 : ℚ)/2, 1] : List ℚ).getD i 0 < (1 : ℚ)/4) ∧
      (1 : ℚ)/4 ≤ ([(1 : ℚ)/2, 1] : List ℚ).getD d 0 ∧
      pickDegree ((1 : ℚ)/4) [(1 : ℚ)/2, 1] =
        some (if (1 : ℚ)/4 < ([(1 : ℚ)/2, 1] : List ℚ).getD d 0 then d
          else min (d + 1) (([(1 : ℚ)/2, 1] : List ℚ).length - 1)) ∧
      ((1 : ℚ)/4 < ([(1 : ℚ)/2, 1] : List ℚ).getD d 0 →
        ∀ i < d, ¬ ((1 : ℚ)/4 < ([(1 : ℚ)/2, 1] : List ℚ).getD i 0))) ∨
    ((∀ i < ([(1 : ℚ)/2, 1] : List ℚ).length,
        ([(1 : ℚ)/2, 1] : List ℚ).getD i 0 < (1 : ℚ)/4) ∧
      pickDegree ((1 : ℚ)/4) [(1 : ℚ)/2, 1] = none) :=
  pickDegree_spec [(1 : ℚ)/2, 1] ((1 : ℚ)/4)
    (by simp [List.sorted_cons]; norm_num)

/-! ## The R10 degree function -/

/-- Go `deg` (RFC 5053 §5.4.4.2): map a value `v` through the degree
threshold table.  The loop scans `f[1..6]` and falls through to the last
entry of `d`. -/
def deg (v : ℕ) : ℕ :=
  let f : List ℕ := [0, 10241, 491582, 712794, 831695, 948446, 1032189, 1048576]
  let d : List ℕ := [0, 1, 2, 3, 4, 10, 11, 40]
  degLoop f d v 1
where
  /-- The scanning loop `for j := 1; j < len(f)-1; j++`. -/
  degLoop (f d : List ℕ) (v : ℕ) : ℕ → ℕ
    | j =>
      if h : j < f.length - 1 then
        if v < f.getD j 0 then d.getD j 0
        else degLoop f d v (j + 1)
      else d.getD (d.length - 1) 0
  termination_by j => f.length - j

/-- C9: `deg` is total on `uint32` values, returns only degrees from
`{1, 2, 3, 4, 10, 11, 40}` (never 0), and saturates to 40 for every
`v ≥ 1032189` — including all values at or beyond `2^20`, outside the
nominal `raptorRand` output range. -/
theorem deg_spec (v : ℕ) (hv : v < 2 ^ 32) :
    (deg v = 1 ∨ deg v = 2 ∨ deg v = 3 ∨ deg v = 4 ∨ deg v = 10 ∨
      deg v = 11 ∨ deg v = 40) ∧ deg v ≠ 0 ∧
    (1032189 ≤ v → deg v = 40) := by
  unfold deg
  have h1 : ∀ j v', ¬ j < 8 - 1 →
      deg.degLoop [0, 10241, 491582, 712794, 831695, 948446, 1032189, 1048576]
        [0, 1, 2, 3, 4, 10, 11, 40] v' j = 40 := by
    intro j v' hj
    rw [deg.degLoop]
    simp only [List.length_cons, List.length_nil]
    rw [dif_neg (by simpa using hj)]
    rfl
  by_cases c1 : v < 10241
  · rw [deg.degLoop, dif_pos (by simp), if_pos (by simpa using c1)]
    refine ⟨Or.inl rfl, by simp, ?_⟩
    intro h
    omega
  · rw [deg.degLoop, dif_pos (by simp), if_neg (by simpa using c1)]
    by_cases c2 : v < 491582
    · rw [deg.degLoop, dif_pos (by simp), if_pos (by simpa using c2)]
      refine ⟨Or.inr (Or.inl rfl), by simp, by intro h; omega⟩
    · rw [deg.degLoop, dif_pos (by simp), if_neg (by simpa using c2)]
      by_cases c3 : v < 712794
      · rw [deg.degLoop, dif_pos (by simp), if_pos (by simpa using c3)]
        refine ⟨Or.inr (Or.inr (Or.inl rfl)), by simp, by intro h; omega⟩
      · rw [deg.degLoop, dif_pos (by simp), if_neg (by simpa using c3)]
        by_cases c4 : v < 831695
        · rw [deg.degLoop, dif_pos (by simp), if_pos (by simpa using c4)]
          refine ⟨Or.inr (Or.inr (Or.inr (Or.inl rfl))), by simp,
            by intro h; omega⟩
        · rw [deg.degLoop, dif_pos (by simp), if_neg (by simpa using c4)]
          by_cases c5 : v < 948446
          · rw [deg.degLoop, dif_pos (by simp), if_pos (by simpa using c5)]
            refine ⟨Or.inr (Or.inr (Or.inr (Or.inr (Or.inl rfl)))), by simp,
              by intro h; omega⟩
          · rw [deg.degLoop, dif_pos (by simp), if_neg (by simpa using c5)]
            by_cases c6 : v < 1032189
            · rw [deg.degLoop, dif_pos (by simp), if_pos (by simpa using c6)]
              refine ⟨Or.inr (Or.inr (Or.inr (Or.inr (Or.inr (Or.inl rfl))))),
                by simp, by intro h; omega⟩
            · rw [deg.degLoop, dif_pos (by simp), if_neg (by simpa using c6)]
              rw [h1 7 v (by omega)]
              exact ⟨by tauto, by simp, fun _ => rfl⟩

/-- C9 witness: `deg` at `1048576 = 2^20` (outside the nominal range). -/
theorem deg_spec_witness :
    (deg 1048576 = 1 ∨ deg 1048576 = 2 ∨ deg 1048576 = 3 ∨ deg 1048576 = 4 ∨
      deg 1048576 = 10 ∨ deg 1048576 = 11 ∨ deg 1048576 = 40) ∧
    deg 1048576 ≠ 0 ∧ (1032189 ≤ 1048576 → deg 1048576 = 40) :=
  deg_spec 1048576 (by norm_num)

/-! ## The LT encoding layer -/

/-- Go `LTBlock`: an encoded block — a 64-bit id and a byte payload. -/
structure LTBlock where
  blockCode : ℤ
  data : Bytes
deriving Repr, DecidableEq

/-- The `fountain.Codec` interface: number of source blocks, intermediate
block construction, and per-id index selection. -/
structure Codec where
  sourceBlocks : ℕ
  generateIntermediateBlocks : Bytes → ℕ → List Block
  pickIndices : ℤ → List ℕ

/-- Go `generateLubyTransformBlock`: XOR together the source blocks at the
given indices, silently skipping any index at or beyond `len(source)`. -/
def generateLubyTransformBlock (source : List Block) (indices : List ℕ) : Block :=
  indices.foldl
    (fun symbol i =>
      if i < source.length then symbol.xor (source.getD i Block.zero) else symbol)
    Block.zero

/-- Go `EncodeLTBlocks`: one encoded block per id; each payload is the XOR
block's data padded with zero bytes to its logical length
(`make([]byte, b.length())` followed by `copy`). -/
def EncodeLTBlocks (message : Bytes) (ids : List ℤ) (c : Codec) : List LTBlock :=
  ids.map (fun id =>
    let b := generateLubyTransformBlock
      (c.generateIntermediateBlocks message c.sourceBlocks) (c.pickIndices id)
    { blockCode := id, data := b.data ++ List.replicate b.padding 0 })

/-- C10: `generateLubyTransformBlock` XORs in only the in-range indices —
dropping every index `≥ len(source)` leaves the result unchanged — and hence
`EncodeLTBlocks` never reads a block out of bounds: filtering each
`PickIndices` result to the in-range indices produces the same encoding. -/
theorem generateLubyTransformBlock_skips (source : List Block) (indices : List ℕ) :
    generateLubyTransformBlock source indices =
      generateLubyTransformBlock source
        (indices.filter (fun i => decide (i < source.length))) ∧
    ∀ (message : Bytes) (ids : List ℤ) (c : Codec),
      EncodeLTBlocks message ids c =
        EncodeLTBlocks message ids
          { c with
            pickIndices := fun id =>
              (c.pickIndices id).filter (fun i =>
                decide (i <
                  (c.generateIntermediateBlocks message c.sourceBlocks).length)) } := by
  have key : ∀ (src : List Block) (idx : List ℕ) (acc : Block),
      idx.foldl (fun symbol i =>
          if i < src.length then symbol.xor (src.getD i Block.zero) else symbol) acc =
        (idx.filter (fun i => decide (i < src.length))).foldl
          (fun symbol i =>
            if i < src.length then symbol.xor (src.getD i Block.zero) else symbol) acc := by
    intro src idx
    induction idx with
    | nil => intro acc; rfl
    | cons i rest ih =>
      intro acc
      by_cases hi : i < src.length
      · rw [List.foldl_cons, if_pos hi, List.filter_cons,
          if_pos (show decide (i < src.length) = true from by simpa using hi),
          List.foldl_cons, if_pos hi]
        exact ih _
      · rw [List.foldl_cons, if_neg hi, List.filter_cons,
          if_neg (show ¬ decide (i < src.length) = true from by simpa using hi)]
        exact ih _
  constructor
  · exact key source indices Block.zero
  · intro message ids c
    unfold EncodeLTBlocks
    simp only
    apply List.map_congr_left
    intro id _
    have h := key (c.generateIntermediateBlocks message c.sourceBlocks)
      (c.pickIndices id) Block.zero
    unfold generateLubyTransformBlock
    rw [h]

/-! ## Combinatorial helpers and the Raptor intermediate-symbol counts -/

/-- Modelled from the spec: the library's `smallPrimes` table backing
`isPrime` and `smallestPrimeGreaterOrEqual` lives in a source file that is
not part of this tree; the spec describes it only as a small-primes table.
It is modelled as the consecutive primes below 300, which covers every
argument the in-range claims need. -/
def smallPrimes : List ℕ :=
  [2, 3, 5, 7, 11, 13, 17, 19, 23, 29, 31, 37, 41, 43, 47, 53, 59, 61, 67,
   71, 73, 79, 83, 89, 97, 101, 103, 107, 109, 113, 127, 131, 137, 139,
   149, 151, 157, 163, 167, 173, 179, 181, 191, 193, 197, 199, 211, 223,
   227, 229, 233, 239, 241, 251, 257, 263, 269, 271, 277, 281, 283, 293]

/-- Go `isPrime`: trial division by the table, with early exit once
`p·p > x`; returns `true` (a documented lie) past the table's reach. -/
def isPrime (x : ℕ) : Bool :=
  isPrimeGo smallPrimes x
where
  isPrimeGo : List ℕ → ℕ → Bool
    | [], _ => true
    | p :: ps, x => if p * p > x then true else if x % p = 0 then false else isPrimeGo ps x

/-- The `for !isPrime(x) { x++ }` fallback of
`smallestPrimeGreaterOrEqual`, fuelled (`none` = fuel ran out). -/
def nextPrimeLoop : ℕ → ℕ → Option ℕ
  | 0, _ => none
  | fuel + 1, x => if isPrime x then some x else nextPrimeLoop fuel (x + 1)

/-- Go `smallestPrimeGreaterOrEqual`: binary-search the table when `x` is
within its range, otherwise scan upwards with `isPrime`. -/
def smallestPrimeGreaterOrEqual (x : ℕ) : Option ℕ :=
  if x ≤ smallPrimes.getD (smallPrimes.length - 1) 0 then
    some (smallPrimes.getD
      (searchGo (fun i => decide (x ≤ smallPrimes.getD i 0))
        smallPrimes.length 0 smallPrimes.length) 0)
  else nextPrimeLoop (x + 2) x

/-- The inner loop of Go `choose`'s cancellation pass: walking the entries
in the given order, divide the first entry divisible by `d` and report
whether one was found.  (Go walks the numerator from its last index down,
so callers pass the reversed numerator.) -/
def divFirst : List ℕ → ℕ → List ℕ × Bool
  | [], _ => ([], false)
  | x :: xs, d =>
    if x % d = 0 then ((x / d) :: xs, true)
    else
      let r := divFirst xs d
      (x :: r.1, r.2)

/-- The outer cancellation pass of Go `choose`: denominator entries are
consumed from the last index down to index 1, each dividing the rightmost
divisible numerator entry (if any). -/
def chooseCancel (num den : List ℕ) : List ℕ :=
  ((den.drop 1).reverse).foldl (fun nm d => ((divFirst nm.reverse d).1).reverse) num

/-- The `SearchInts` trim of Go `choose`: when the denominator is nonempty
and the binary search for its last entry lands past index 0, drop the
(matching) leading numerator entries and trailing denominator entries. -/
def chooseTrim (num den : List ℕ) : List ℕ × List ℕ :=
  if 0 < den.length then
    if 0 < searchGo (fun i => decide (den.getD (den.length - 1) 0 ≤ num.getD i 0))
        num.length 0 num.length then
      (num.drop (searchGo (fun i => decide (den.getD (den.length - 1) 0 ≤ num.getD i 0))
          num.length 0 num.length + 1),
       den.take (den.length -
          searchGo (fun i => decide (den.getD (den.length - 1) 0 ≤ num.getD i 0))
            num.length 0 num.length - 1))
    else (num, den)
  else (num, den)

/-- Go `choose(n, k)`: symmetric reduction, numerator `[k+1..n]` /
denominator `[1..n-k]`, the `SearchInts` prefix trim, the cancellation pass,
and the product of what remains of the numerator.  A denominator entry that
divides no single numerator entry is silently dropped, so the result can
exceed the true binomial coefficient. -/
def choose (n k0 : ℕ) : ℕ :=
  (chooseCancel
    (chooseTrim (List.range' ((if k0 > n / 2 then n - k0 else k0) + 1)
        (n - (if k0 > n / 2 then n - k0 else k0)))
      (List.range' 1 (n - (if k0 > n / 2 then n - k0 else k0)))).1
    (chooseTrim (List.range' ((if k0 > n / 2 then n - k0 else k0) + 1)
        (n - (if k0 > n / 2 then n - k0 else k0)))
      (List.range' 1 (n - (if k0 > n / 2 then n - k0 else k0)))).2).foldl
    (fun a b => a * b) 1

/-- Go `centerBinomial(x) = choose(x, x/2)`. -/
def centerBinomial (x : ℕ) : ℕ := choose x (x / 2)

/-- A fuelled `while p x { x++ }` loop: returns the first `x` at or after
the start failing `p` (`none` = fuel ran out). -/
def incWhile (p : ℕ → Bool) : ℕ → ℕ → Option ℕ
  | 0, x => if p x then none else some x
  | fuel + 1, x => if p x then incWhile p fuel (x + 1) else some x

/-- Go `intermediateSymbols` (RFC 5053 §5.4.2.3): the loops are seeded with
exact integer counterparts of the float seeds (`Nat.sqrt` for
`floor(sqrt(2k))`, ceiling division for `ceil(0.01k)`, `Nat.log 4` for
`floor(ln(k+s)/ln 4)`), which agree with the IEEE computations on the
supported range; the loops themselves only move the seeds up to the answer.
Returns `none` when a fuelled loop fails (unreachable in the supported
range). -/
def intermediateSymbols (k : ℕ) : Option (ℕ × ℕ × ℕ) :=
  match incWhile (fun x => decide (x * (x - 1) < 2 * k)) (2 * k + 2)
      (max (Nat.sqrt (2 * k)) 1) with
  | none => none
  | some x =>
    match smallestPrimeGreaterOrEqual ((k + 99) / 100 + x) with
    | none => none
    | some s =>
      match incWhile (fun h => decide (centerBinomial h < k + s)) (k + s + 2)
          (Nat.log 4 (k + s)) with
      | none => none
      | some h => some (k + s + h, s, h)

/-- A fuelled `while` loop that scans upwards returns the least failing
point at or after the start, provided one lies within the fuel. -/
theorem incWhile_spec (p : ℕ → Bool) : ∀ (fuel start : ℕ),
    (∃ t, start ≤ t ∧ t ≤ start + fuel ∧ p t = false) →
    ∃ r, incWhile p fuel start = some r ∧ p r = false ∧ start ≤ r ∧
      ∀ t, start ≤ t → t < r → p t = true := by
  intro fuel
  induction fuel with
  | zero =>
    rintro start ⟨t, ht1, ht2, ht3⟩
    have hts : t = start := by omega
    rw [incWhile, if_neg (by simp [hts ▸ ht3])]
    exact ⟨start, rfl, hts ▸ ht3, le_refl _, fun u h1 h2 => absurd h1 (by omega)⟩
  | succ n ih =>
    rintro start ⟨t, ht1, ht2, ht3⟩
    rw [incWhile]
    by_cases hstart : p start = true
    · rw [if_pos hstart]
      have htne : t ≠ start := by
        intro h
        rw [h, hstart] at ht3
        cases ht3
      obtain ⟨r, hr1, hr2, hr3, hr4⟩ := ih (start + 1) ⟨t, by omega, by omega, ht3⟩
      refine ⟨r, hr1, hr2, by omega, ?_⟩
      intro u hu1 hu2
      by_cases hus : u = start
      · rw [hus]; exact hstart
      · exact hr4 u (by omega) hu2
    · rw [if_neg hstart]
      have hf : p start = false := by
        cases h : p start
        · rfl
        · exact absurd h hstart
      exact ⟨start, rfl, hf, le_refl _, fun u h1 h2 => absurd h1 (by omega)⟩

theorem sqrt_eq_of (n m : ℕ) (h1 : m * m ≤ n) (h2 : n < (m + 1) * (m + 1)) :
    Nat.sqrt n = m := by
  have ha := Nat.le_sqrt.mpr h1
  have hb := Nat.sqrt_lt.mpr h2
  omega

theorem mul_pred_mono {a b : ℕ} (h : a ≤ b) : a * (a - 1) ≤ b * (b - 1) :=
  Nat.mul_le_mul h (by omega)

/-- `(k+1)(k+2)⋯(k+m) = C(k+m, m) · m!`. -/
theorem prod_range_choose (k : ℕ) : ∀ (m : ℕ),
    (List.range' (k + 1) m).prod = Nat.choose (k + m) m * Nat.factorial m := by
  intro m
  induction m with
  | zero => simp
  | succ m ih =>
    rw [List.range'_1_concat, List.prod_append, ih]
    simp only [List.prod_cons, List.prod_nil, Nat.mul_one]
    have hs := Nat.succ_mul_choose_eq (k + m) m
    have e1 : Nat.factorial (m + 1) = Nat.factorial m * (m + 1) :=
      by rw [Nat.factorial_succ]; ring
    have e2 : k + (m + 1) = (k + m) + 1 := by omega
    rw [e1, e2]
    calc Nat.choose (k + m) m * Nat.factorial m * (k + 1 + m)
        = (Nat.succ (k + m) * Nat.choose (k + m) m) * Nat.factorial m := by
          simp [Nat.succ_eq_add_one]; ring
      _ = (Nat.choose (k + m + 1) (m + 1) * (m + 1)) * Nat.factorial m := by
          rw [hs]
      _ = Nat.choose (k + m + 1) (m + 1) * (Nat.factorial m * (m + 1)) := by ring

/-- `[1..m]` multiplies to `m!`. -/
theorem prod_range_one (m : ℕ) : (List.range' 1 m).prod = Nat.factorial m := by
  have h := prod_range_choose 0 m
  simpa using h

theorem divFirst_found {d : ℕ} (hd : 0 < d) : ∀ (l : List ℕ),
    ((divFirst l d).2 = true → (divFirst l d).1.prod * d = l.prod) ∧
    ((divFirst l d).2 = false → (divFirst l d).1 = l) := by
  intro l
  induction l with
  | nil => exact ⟨fun h => by simp [divFirst] at h, fun _ => rfl⟩
  | cons x xs ih =>
    unfold divFirst
    by_cases hx : x % d = 0
    · rw [if_pos hx]
      refine ⟨fun _ => ?_, fun h => by simp at h⟩
      simp only [List.prod_cons]
      have : x / d * d = x := Nat.div_mul_cancel (Nat.dvd_of_mod_eq_zero hx)
      calc x / d * xs.prod * d = (x / d * d) * xs.prod := by ring
        _ = x * xs.prod := by rw [this]
    · rw [if_neg hx]
      simp only
      constructor
      · intro h
        simp only [List.prod_cons]
        have := ih.1 h
        calc x * (divFirst xs d).1.prod * d = x * ((divFirst xs d).1.prod * d) := by ring
          _ = x * xs.prod := by rw [this]
      · intro h
        rw [ih.2 h]

theorem divFirst_pos {d : ℕ} (hd : 0 < d) : ∀ (l : List ℕ),
    (∀ x ∈ l, 0 < x) → ∀ x ∈ (divFirst l d).1, 0 < x := by
  intro l
  induction l with
  | nil => intro _ x hx; simp [divFirst] at hx
  | cons a as ih =>
    intro hpos x hx
    unfold divFirst at hx
    by_cases ha : a % d = 0
    · rw [if_pos ha] at hx
      rcases List.mem_cons.mp hx with h | h
      · subst h
        have hdvd := Nat.dvd_of_mod_eq_zero ha
        have ha' : 0 < a := hpos a (List.mem_cons_self _ _)
        exact Nat.div_pos (Nat.le_of_dvd ha' hdvd) hd
      · exact hpos x (List.mem_cons_of_mem _ h)
    · rw [if_neg ha] at hx
      rcases List.mem_cons.mp hx with h | h
      · subst h
        exact hpos x (List.mem_cons_self _ _)
      · exact ih (fun y hy => hpos y (List.mem_cons_of_mem _ hy)) x h

/-- The cancellation fold divides the numerator's product by a divisor of
the processed denominators' product, keeping the entries positive. -/
theorem cancelFold_spec : ∀ (ds num : List ℕ), (∀ d ∈ ds, 0 < d) →
    (∀ x ∈ num, 0 < x) →
    ∃ D, 0 < D ∧ D ∣ ds.prod ∧
      (ds.foldl (fun nm d => ((divFirst nm.reverse d).1).reverse) num).prod * D =
        num.prod ∧
      ∀ x ∈ ds.foldl (fun nm d => ((divFirst nm.reverse d).1).reverse) num, 0 < x := by
  intro ds
  induction ds with
  | nil =>
    intro num _ hpos
    exact ⟨1, by omega, by simp, by simp, hpos⟩
  | cons d rest ih =>
    intro num hds hpos
    have hd : 0 < d := hds d (List.mem_cons_self _ _)
    have hrev : ∀ x ∈ num.reverse, 0 < x := by
      intro x hx
      exact hpos x (List.mem_reverse.mp hx)
    have hpos' : ∀ x ∈ ((divFirst num.reverse d).1).reverse, 0 < x := by
      intro x hx
      exact divFirst_pos hd num.reverse hrev x (List.mem_reverse.mp hx)
    obtain ⟨D, hD1, hD2, hD3, hD4⟩ :=
      ih (((divFirst num.reverse d).1).reverse)
        (fun e he => hds e (List.mem_cons_of_mem _ he)) hpos'
    rw [List.foldl_cons]
    by_cases hfound : (divFirst num.reverse d).2 = true
    · have hprod : (divFirst num.reverse d).1.prod * d = num.reverse.prod :=
        (divFirst_found hd num.reverse).1 hfound
      refine ⟨d * D, by positivity, ?_, ?_, hD4⟩
      · rw [List.prod_cons]
        exact mul_dvd_mul_left d hD2
      · have hr : (((divFirst num.reverse d).1).reverse).prod =
            (divFirst num.reverse d).1.prod := List.prod_reverse _
        calc (rest.foldl (fun nm d => ((divFirst nm.reverse d).1).reverse)
              (((divFirst num.reverse d).1).reverse)).prod * (d * D)
            = ((rest.foldl (fun nm d => ((divFirst nm.reverse d).1).reverse)
                (((divFirst num.reverse d).1).reverse)).prod * D) * d := by ring
          _ = (((divFirst num.reverse d).1).reverse).prod * d := by rw [hD3]
          _ = (divFirst num.reverse d).1.prod * d := by rw [hr]
          _ = num.reverse.prod := hprod
          _ = num.prod := List.prod_reverse _
    · have hfalse : (divFirst num.reverse d).2 = false := by
        cases h : (divFirst num.reverse d).2
        · rfl
        · exact absurd h hfound
      have heq : ((divFirst num.reverse d).1).reverse = num := by
        rw [(divFirst_found hd num.reverse).2 hfalse, List.reverse_reverse]
      rw [heq] at hD3 hD4
      rw [heq]
      refine ⟨D, hD1, ?_, hD3, hD4⟩
      rw [List.prod_cons]
      exact Dvd.dvd.mul_left hD2 d

/-- The `SearchInts` trim drops equal-valued runs from the numerator's
front and the denominator's back: the trimmed pair is again a pair of
integer ranges, with both products reduced by the same factor. -/
theorem chooseTrim_spec (k m : ℕ) :
    ∃ k' m' T, 0 < T ∧
      chooseTrim (List.range' (k + 1) m) (List.range' 1 m) =
        (List.range' (k' + 1) m', List.range' 1 m') ∧
      (List.range' (k + 1) m).prod = T * (List.range' (k' + 1) m').prod ∧
      Nat.factorial m = T * Nat.factorial m' ∧ k + m = k' + m' := by
  by_cases hm : 0 < m
  · have hlast : (List.range' 1 m).getD (m - 1) 0 = m := by
      rw [List.getD_eq_getElem _ _ (by rw [List.length_range']; omega),
        List.getElem_range']
      omega
    have hmono : ∀ a b, 0 ≤ a → a ≤ b → b < m →
        (decide (m ≤ (List.range' (k + 1) m).getD a 0) = true) →
        (decide (m ≤ (List.range' (k + 1) m).getD b 0) = true) := by
      intro a b _ hab hb hha
      rw [decide_eq_true_iff] at hha ⊢
      rw [List.getD_eq_getElem _ _ (by rw [List.length_range']; omega),
        List.getElem_range'] at hha
      rw [List.getD_eq_getElem _ _ (by rw [List.length_range']; omega),
        List.getElem_range']
      omega
    have hsp := searchGo_spec
      (fun i => decide (m ≤ (List.range' (k + 1) m).getD i 0)) m 0 m
      (by omega) (by omega) hmono (by omega)
    unfold chooseTrim
    simp only [List.length_range']
    rw [hlast, if_pos hm]
    by_cases hz : 0 < searchGo
        (fun i => decide (m ≤ (List.range' (k + 1) m).getD i 0)) m 0 m
    · rw [if_pos hz]
      obtain ⟨z, hzdef⟩ : ∃ z, searchGo
          (fun i => decide (m ≤ (List.range' (k + 1) m).getD i 0)) m 0 m = z :=
        ⟨_, rfl⟩
      rw [hzdef] at hz hsp ⊢
      have hzlt : z < m := by
        by_contra hcon
        have h1 := hsp.2.2.1 (m - 1) (by omega)
        rw [decide_eq_false_iff_not] at h1
        apply h1
        rw [List.getD_eq_getElem _ _ (by rw [List.length_range']; omega),
          List.getElem_range']
        omega
      have hfz : m ≤ k + 1 + z := by
        have h2 := hsp.2.2.2 hzlt
        rw [decide_eq_true_iff] at h2
        rw [List.getD_eq_getElem _ _ (by rw [List.length_range']; omega),
          List.getElem_range'] at h2
        omega
      have hfz1 : k + z < m := by
        have h3 := hsp.2.2.1 (z - 1) (by omega)
        rw [decide_eq_false_iff_not] at h3
        rw [List.getD_eq_getElem _ _ (by rw [List.length_range']; omega),
          List.getElem_range'] at h3
        omega
      have hnum_split : List.range' (k + 1) m =
          List.range' (k + 1) (z + 1) ++ List.range' (k + z + 1 + 1) (m - z - 1) := by
        have h := List.range'_append (k + 1) (z + 1) (m - z - 1) 1
        simp only [Nat.one_mul] at h
        rw [show k + 1 + (z + 1) = k + z + 1 + 1 from by omega] at h
        rw [show m - z - 1 + (z + 1) = m from by omega] at h
        exact h.symm
      have hden_split : List.range' 1 m =
          List.range' 1 (m - z - 1) ++ List.range' (1 + (m - z - 1)) (z + 1) := by
        have h := List.range'_append 1 (m - z - 1) (z + 1) 1
        simp only [Nat.one_mul] at h
        rw [show z + 1 + (m - z - 1) = m from by omega] at h
        exact h.symm
      have hsame : List.range' (1 + (m - z - 1)) (z + 1) =
          List.range' (k + 1) (z + 1) := by
        rw [show 1 + (m - z - 1) = k + 1 from by omega]
      have e1 : (List.range' (k + 1) m).drop (z + 1) =
          List.range' (k + z + 1 + 1) (m - z - 1) := by
        rw [hnum_split, List.drop_left' (List.length_range' _ _ _)]
      have e2 : (List.range' 1 m).take (m - z - 1) =
          List.range' 1 (m - z - 1) := by
        rw [hden_split, List.take_left' (List.length_range' _ _ _)]
      refine ⟨k + z + 1, m - z - 1, (List.range' (k + 1) (z + 1)).prod, ?_, ?_, ?_, ?_, by omega⟩
      · apply List.prod_pos
        intro a ha
        have := (List.mem_range'_1.mp ha).1
        omega
      · rw [show m - z - 1 = m - (z + 1) from by omega] at e1 e2 ⊢
        rw [e1, e2]
      · rw [hnum_split, List.prod_append]
      · rw [← prod_range_one m, ← prod_range_one (m - z - 1)]
        rw [hden_split, List.prod_append, hsame]
        ring
    · rw [if_neg hz]
      exact ⟨k, m, 1, by omega, rfl, by simp, by simp, rfl⟩
  · have hm0 : m = 0 := by omega
    subst hm0
    refine ⟨k, 0, 1, by omega, ?_, by simp, by simp, rfl⟩
    unfold chooseTrim
    rw [if_neg (by simp)]

/-- The library's `choose` never undershoots the true binomial coefficient:
every denominator entry it fails to cancel simply inflates the result. -/
theorem choose_ge (n k0 : ℕ) (hk0 : k0 ≤ n) :
    Nat.choose n k0 ≤ choose n k0 := by
  unfold choose
  set k := if k0 > n / 2 then n - k0 else k0 with hk
  have hkn : k ≤ n := by rw [hk]; split <;> omega
  have hch : Nat.choose n k = Nat.choose n k0 := by
    rw [hk]
    split
    · exact Nat.choose_symm hk0
    · rfl
  obtain ⟨k', m', T, hT, htrim, hnum, hfact, hsum⟩ := chooseTrim_spec k (n - k)
  rw [htrim]
  obtain ⟨D, hD1, hD2, hD3, _⟩ := cancelFold_spec
    (((List.range' 1 m').drop 1).reverse) (List.range' (k' + 1) m')
    (by
      intro d hd
      have hd' := List.mem_of_mem_drop (List.mem_reverse.mp hd)
      have := (List.mem_range'_1.mp hd').1
      omega)
    (by
      intro x hx
      have := (List.mem_range'_1.mp hx).1
      omega)
  have hdrop : ((List.range' 1 m').drop 1).prod = Nat.factorial m' := by
    cases m' with
    | zero => simp
    | succ m'' =>
      have hsplit : List.range' 1 (m'' + 1) = 1 :: List.range' 2 m'' :=
        List.range'_succ 1 m'' 1
      have h1 : (List.range' 1 (m'' + 1)).prod = (List.range' 2 m'').prod := by
        rw [hsplit, List.prod_cons, Nat.one_mul]
      rw [hsplit]
      simp only [List.drop_succ_cons, List.drop_zero]
      rw [← h1, prod_range_one]
  have hDle : D ≤ Nat.factorial m' := by
    apply Nat.le_of_dvd (Nat.factorial_pos m')
    rw [List.prod_reverse, hdrop] at hD2
    exact hD2
  have hprod' : (List.range' (k' + 1) m').prod =
      Nat.choose (k' + m') m' * Nat.factorial m' := prod_range_choose k' m'
  have hkm : k' + m' = n := by omega
  rw [hkm] at hprod'
  -- the trim does not change the binomial: cancel `T · m'!`
  have hbin : Nat.choose n (n - k) = Nat.choose n m' := by
    have h1 : (List.range' (k + 1) (n - k)).prod =
        Nat.choose n (n - k) * Nat.factorial (n - k) := by
      have := prod_range_choose k (n - k)
      rw [show k + (n - k) = n by omega] at this
      exact this
    have h2 : Nat.choose n (n - k) * (T * Nat.factorial m') =
        T * (Nat.choose n m' * Nat.factorial m') := by
      rw [← hfact, ← h1, hnum, hprod']
    have h3 : (Nat.choose n (n - k) * Nat.factorial m') * T =
        (Nat.choose n m' * Nat.factorial m') * T := by
      calc (Nat.choose n (n - k) * Nat.factorial m') * T
          = Nat.choose n (n - k) * (T * Nat.factorial m') := by ring
        _ = T * (Nat.choose n m' * Nat.factorial m') := h2
        _ = (Nat.choose n m' * Nat.factorial m') * T := by ring
    have h4 := Nat.eq_of_mul_eq_mul_right hT h3
    exact Nat.eq_of_mul_eq_mul_right (Nat.factorial_pos m') h4
  -- assemble
  unfold chooseCancel
  rw [← List.prod_eq_foldl]
  have hle : Nat.choose n m' * Nat.factorial m' ≤
      ((((List.range' 1 m').drop 1).reverse).foldl
        (fun nm d => ((divFirst nm.reverse d).1).reverse)
        (List.range' (k' + 1) m')).prod * Nat.factorial m' := by
    rw [← hprod', ← hD3]
    exact Nat.mul_le_mul_left _ hDle
  have hfin := Nat.le_of_mul_le_mul_right hle (Nat.factorial_pos m')
  calc Nat.choose n k0 = Nat.choose n k := hch.symm
    _ = Nat.choose n (n - k) := (Nat.choose_symm hkn).symm
    _ = Nat.choose n m' := hbin
    _ ≤ _ := hfin

/-- Kernel-fast trial-division primality: scans divisors `d` upward until
`d·d > n`. -/
def primeB (n : ℕ) : Bool :=
  if n < 2 then false else primeBLoop n n 2
where
  primeBLoop (n : ℕ) : ℕ → ℕ → Bool
    | 0, _ => true
    | fuel + 1, d =>
      if d * d > n then true
      else if n % d = 0 then false
      else primeBLoop n fuel (d + 1)

theorem primeBLoop_iff (n : ℕ) : ∀ (fuel d : ℕ), 0 < d →
    n < (d + fuel) * (d + fuel) →
    (primeB.primeBLoop n fuel d = true ↔
      ∀ e, d ≤ e → e * e ≤ n → ¬ (n % e = 0)) := by
  intro fuel
  induction fuel with
  | zero =>
    intro d hd hbound
    simp only [Nat.add_zero] at hbound
    rw [primeB.primeBLoop]
    simp only [true_iff]
    intro e hde he
    have : d * d ≤ e * e := Nat.mul_le_mul hde hde
    omega
  | succ m ih =>
    intro d hd hbound
    rw [primeB.primeBLoop]
    by_cases h1 : d * d > n
    · rw [if_pos h1]
      simp only [true_iff]
      intro e hde he
      have : d * d ≤ e * e := Nat.mul_le_mul hde hde
      omega
    · rw [if_neg h1]
      by_cases h2 : n % d = 0
      · rw [if_pos h2]
        constructor
        · intro h
          cases h
        · intro h
          exact absurd (h d (le_refl _) (by omega) h2) (by simp)
      · rw [if_neg h2]
        rw [ih (d + 1) (by omega) (by
          have : d + 1 + m = d + (m + 1) := by omega
          rw [this]
          exact hbound)]
        constructor
        · intro h e hde he
          rcases Nat.eq_or_lt_of_le hde with hx | hx
          · rw [← hx]
            exact h2
          · exact h e (by omega) he
        · intro h e hde he
          exact h e (by omega) he

/-- `primeB` decides `Nat.Prime`. -/
theorem primeB_iff (n : ℕ) : primeB n = true ↔ Nat.Prime n := by
  unfold primeB
  by_cases hn : n < 2
  · rw [if_pos hn]
    constructor
    · intro h
      cases h
    · intro h
      exact absurd h.two_le (by omega)
  · rw [if_neg hn]
    rw [primeBLoop_iff n n 2 (by omega) (by nlinarith)]
    rw [Nat.prime_def_le_sqrt]
    constructor
    · intro h
      refine ⟨by omega, ?_⟩
      intro m hm hms hdvd
      exact h m hm (Nat.le_sqrt.mp hms)
        (Nat.mod_eq_zero_of_dvd hdvd)
    · rintro ⟨h2n, hsq⟩ e he2 hesq hemod
      exact hsq e he2 (Nat.le_sqrt.mpr hesq) (Nat.dvd_of_mod_eq_zero hemod)

theorem smallPrimes_length : smallPrimes.length = 62 := by decide

set_option maxRecDepth 8000 in
theorem smallPrimes_step : ∀ i < 61, smallPrimes.getD i 0 < smallPrimes.getD (i + 1) 0 := by
  decide

set_option maxRecDepth 8000 in
theorem smallPrimes_primeB : ∀ p ∈ smallPrimes, primeB p = true := by decide

theorem smallPrimes_prime : ∀ p ∈ smallPrimes, Nat.Prime p :=
  fun p hp => (primeB_iff p).mp (smallPrimes_primeB p hp)

set_option maxRecDepth 8000 in
theorem smallPrimes_le : ∀ p ∈ smallPrimes, p ≤ 293 := by decide

set_option maxRecDepth 8000 in
theorem smallPrimes_completeB : ∀ q < 300, primeB q = true → q ∈ smallPrimes := by
  decide

theorem smallPrimes_complete : ∀ q < 300, Nat.Prime q → q ∈ smallPrimes :=
  fun q hq hprime => smallPrimes_completeB q hq ((primeB_iff q).mpr hprime)

/-- Monotonicity of the prime table in `getD` form. -/
theorem smallPrimes_mono : ∀ {a b : ℕ}, a ≤ b → b < 62 →
    smallPrimes.getD a 0 ≤ smallPrimes.getD b 0 := by
  intro a b
  induction b with
  | zero =>
    intro hab _
    have ha : a = 0 := by omega
    rw [ha]
  | succ n ih =>
    intro hab hblen
    rcases Nat.eq_or_lt_of_le hab with h | h
    · rw [h]
    · have h1 := ih (by omega) (by omega)
      have h2 := smallPrimes_step n (by omega)
      omega

/-- On the table's range, `smallestPrimeGreaterOrEqual` returns exactly the
least prime at or above its argument. -/
theorem smallestPrimeGE_spec (x : ℕ) (hx : x ≤ 293) :
    ∃ p, smallestPrimeGreaterOrEqual x = some p ∧ Nat.Prime p ∧ x ≤ p ∧
      ∀ q, Nat.Prime q → x ≤ q → p ≤ q := by
  unfold smallestPrimeGreaterOrEqual
  have hlastval : smallPrimes.getD (smallPrimes.length - 1) 0 = 293 := by decide
  rw [hlastval, if_pos hx]
  have hmono : ∀ a b, 0 ≤ a → a ≤ b → b < smallPrimes.length →
      (decide (x ≤ smallPrimes.getD a 0) = true) →
      (decide (x ≤ smallPrimes.getD b 0) = true) := by
    intro a b _ hab hb hha
    rw [decide_eq_true_iff] at hha ⊢
    have hm := smallPrimes_mono hab (by rw [smallPrimes_length] at hb; omega)
    omega
  have hsp := searchGo_spec (fun i => decide (x ≤ smallPrimes.getD i 0))
    smallPrimes.length 0 smallPrimes.length (by omega) (by omega) hmono (by omega)
  obtain ⟨z, hzdef⟩ : ∃ z, searchGo (fun i => decide (x ≤ smallPrimes.getD i 0))
      smallPrimes.length 0 smallPrimes.length = z := ⟨_, rfl⟩
  rw [hzdef] at hsp ⊢
  have hlen62 : smallPrimes.length = 62 := smallPrimes_length
  have hzlt : z < smallPrimes.length := by
    by_contra hcon
    have h1 := hsp.2.2.1 (smallPrimes.length - 1) (by omega)
    rw [decide_eq_false_iff_not] at h1
    apply h1
    rw [hlastval]
    omega
  have hp_ge : x ≤ smallPrimes.getD z 0 := by
    have h2 := hsp.2.2.2 hzlt
    rw [decide_eq_true_iff] at h2
    exact h2
  have hp_mem : smallPrimes.getD z 0 ∈ smallPrimes := by
    rw [List.getD_eq_getElem _ _ hzlt]
    exact List.getElem_mem _
  refine ⟨smallPrimes.getD z 0, rfl, smallPrimes_prime _ hp_mem, hp_ge, ?_⟩
  intro q hq hxq
  by_cases hq997 : q ≤ 293
  · have hqmem : q ∈ smallPrimes := smallPrimes_complete q (by omega) hq
    obtain ⟨j, hj, hjq⟩ := List.getElem_of_mem hqmem
    have hjd : smallPrimes.getD j 0 = q := by
      rw [List.getD_eq_getElem _ _ hj, hjq]
    have hjz : z ≤ j := by
      by_contra hcon
      have h3 := hsp.2.2.1 j (by omega)
      rw [decide_eq_false_iff_not] at h3
      apply h3
      rw [hjd]
      omega
    have hm := smallPrimes_mono hjz (by omega)
    omega
  · have hle := smallPrimes_le _ hp_mem
    omega

/-- `centerBinomial` dominates its argument: the library's `choose t (t/2)`
is at least the true central binomial, which is at least `C(t,1) = t`. -/
theorem centerBinomial_ge_self (t : ℕ) : t ≤ centerBinomial t :=
  calc t = Nat.choose t 1 := (Nat.choose_one_right t).symm
    _ ≤ Nat.choose t (t / 2) := Nat.choose_le_middle 1 t
    _ ≤ choose t (t / 2) := choose_ge t (t / 2) (Nat.div_le_self t 2)

/-- Characterization of `intermediateSymbols` on the supported range: it
returns `some (k+S+H, S, H)` where `X` is the least positive integer with
`X(X-1) ≥ 2k`, `S` is the least prime at or above `⌈k/100⌉ + X`, and `H` is
the least integer at or above `⌊log₄(k+S)⌋` whose library `centerBinomial`
reaches `k+S`. -/
theorem intermediateSymbols_char (k : ℕ) (hk : k ≤ 8192) :
    ∃ X S H, intermediateSymbols k = some (k + S + H, S, H) ∧
      (1 ≤ X ∧ 2 * k ≤ X * (X - 1) ∧
        ∀ y, 1 ≤ y → y < X → y * (y - 1) < 2 * k) ∧
      (Nat.Prime S ∧ (k + 99) / 100 + X ≤ S ∧
        ∀ q, Nat.Prime q → (k + 99) / 100 + X ≤ q → S ≤ q) ∧
      (k + S ≤ centerBinomial H ∧ Nat.log 4 (k + S) ≤ H ∧
        ∀ h, Nat.log 4 (k + S) ≤ h → h < H → centerBinomial h < k + S) := by
  have hsqrt_sq : Nat.sqrt (2 * k) * Nat.sqrt (2 * k) ≤ 2 * k :=
    Nat.le_sqrt.mp (le_refl _)
  -- The X loop: exit point exists at 2k+1.
  obtain ⟨X, hXeq, hXfalse, hXge, hXleast⟩ :=
    incWhile_spec (fun x => decide (x * (x - 1) < 2 * k)) (2 * k + 2)
      (max (Nat.sqrt (2 * k)) 1)
      ⟨2 * k + 1,
        by
          have h1 : Nat.sqrt (2 * k) ≤ 2 * k := Nat.sqrt_le_self (2 * k)
          omega,
        by
          have h1 : Nat.sqrt (2 * k) ≤ 2 * k := Nat.sqrt_le_self (2 * k)
          omega,
        by
          simp only [decide_eq_false_iff_not, not_lt]
          have h2 : 2 * k + 1 - 1 = 2 * k := by omega
          rw [h2]
          exact Nat.le_mul_of_pos_left (2 * k) (by omega)⟩
  rw [decide_eq_false_iff_not, not_lt] at hXfalse
  have hX1 : 1 ≤ X := le_trans (le_max_right _ _) hXge
  have hXleast' : ∀ y, 1 ≤ y → y < X → y * (y - 1) < 2 * k := by
    intro y hy1 hyX
    by_cases hys : max (Nat.sqrt (2 * k)) 1 ≤ y
    · have := hXleast y hys hyX
      rw [decide_eq_true_iff] at this
      exact this
    · push_neg at hys
      have hysq : y < Nat.sqrt (2 * k) := by omega
      have h1 : y * (y - 1) ≤ y * y := Nat.mul_le_mul_left y (by omega)
      have h2 : y * y < Nat.sqrt (2 * k) * Nat.sqrt (2 * k) :=
        Nat.mul_lt_mul_of_lt_of_le hysq (le_of_lt hysq) (by omega)
      omega
  -- Bound X so the prime lookup stays in the table.
  have hX129 : X ≤ 129 := by
    by_contra hcon
    have := hXleast' 129 (by omega) (by omega)
    norm_num at this
    omega
  have hs0 : (k + 99) / 100 + X ≤ 293 := by
    have h1 : (k + 99) / 100 ≤ 8291 / 100 := Nat.div_le_div_right (by omega)
    norm_num at h1
    omega
  -- The prime lookup.
  obtain ⟨S, hSeq, hSprime, hSge, hSleast⟩ :=
    smallestPrimeGE_spec ((k + 99) / 100 + X) hs0
  -- The H loop: exit point exists at k+S.
  obtain ⟨H, hHeq, hHfalse, hHge, hHleast⟩ :=
    incWhile_spec (fun h => decide (centerBinomial h < k + S)) (k + S + 2)
      (Nat.log 4 (k + S))
      ⟨k + S,
        Nat.log_le_self 4 (k + S),
        by have := Nat.log_le_self 4 (k + S); omega,
        by
          simp only [decide_eq_false_iff_not, not_lt]
          exact centerBinomial_ge_self (k + S)⟩
  rw [decide_eq_false_iff_not, not_lt] at hHfalse
  refine ⟨X, S, H, ?_, ⟨hX1, hXfalse, hXleast'⟩, ⟨hSprime, hSge, hSleast⟩,
    ⟨hHfalse, hHge, ?_⟩⟩
  · unfold intermediateSymbols
    rw [hXeq]
    dsimp only
    rw [hSeq]
    dsimp only
    rw [hHeq]
  · intro h h1 h2
    have := hHleast h h1 h2
    rw [decide_eq_true_iff] at this
    exact this

/-- Pinning lemma: concrete values satisfying the three leastness
characterizations force the output of `intermediateSymbols`.  The side
conditions are phrased over `primeB` and an explicit `h0 = ⌊log₄(k+S)⌋`
so each can be discharged by `decide`. -/
theorem intermediateSymbols_pin (k X S h0 H : ℕ) (hk : k ≤ 8192)
    (hX1 : 1 ≤ X) (hX2 : 2 * k ≤ X * (X - 1))
    (hX3 : ∀ y, y < X → 1 ≤ y → y * (y - 1) < 2 * k)
    (hSp : primeB S = true) (hS2 : (k + 99) / 100 + X ≤ S)
    (hS3 : ∀ q, q < S → (k + 99) / 100 + X ≤ q → primeB q = false)
    (hlog : Nat.log 4 (k + S) = h0)
    (hH1 : k + S ≤ centerBinomial H) (hH2 : h0 ≤ H)
    (hH3 : ∀ h, h < H → h0 ≤ h → centerBinomial h < k + S) :
    intermediateSymbols k = some (k + S + H, S, H) := by
  obtain ⟨X0, S0, H0, heq, ⟨hX01, hX02, hX03⟩, ⟨hS01, hS02, hS03⟩,
    ⟨hH01, hH02, hH03⟩⟩ := intermediateSymbols_char k hk
  have hXX : X0 = X := by
    rcases Nat.lt_trichotomy X0 X with h | h | h
    · have := hX3 X0 h hX01
      omega
    · exact h
    · have := hX03 X (by omega) h
      omega
  subst hXX
  have hSS : S0 = S := by
    have hle : S0 ≤ S := hS03 S ((primeB_iff S).mp hSp) hS2
    rcases Nat.eq_or_lt_of_le hle with h | h
    · exact h
    · have hfalse := hS3 S0 h hS02
      have htrue := (primeB_iff S0).mpr hS01
      rw [htrue] at hfalse
      cases hfalse
  subst hSS
  rw [hlog] at hH02 hH03
  have hHH : H0 = H := by
    rcases Nat.lt_trichotomy H0 H with h | h | h
    · have := hH3 H0 h hH02
      omega
    · exact h
    · have := hH03 H hH2 h
      omega
  subst hHH
  exact heq

set_option maxRecDepth 8000 in
/-- C7 counterexample: at `k = 7000` the library returns `H = 15`, yet the
true binomial `C(15, ⌈15/2⌉) = C(15, 8) = 6435` is below `k + S = 7191`,
so `H` is not the smallest integer with binomial `choose(H, ⌈H/2⌉) ≥ k+S`
(that would be 16): the loop tests the library's inflated `choose`, whose
value at `(15, 7)` is 25740, not 6435. -/
theorem intermediateSymbols_counterexample :
    intermediateSymbols 7000 = some (7206, 191, 15) ∧
    Nat.choose 15 8 < 7000 + 191 := by
  constructor
  · exact intermediateSymbols_pin 7000 119 191 6 15 (by norm_num) (by norm_num)
      (by norm_num) (by decide) (by decide) (by norm_num) (by decide)
      (Nat.log_eq_of_pow_le_of_lt_pow (by norm_num) (by norm_num))
      (by decide) (by norm_num) (by decide)
  · decide

/-- C7: on the supported range `k ≤ 8192`, `intermediateSymbols k` returns
`some (k+S+H, S, H)` where `X` is the least positive integer with
`X(X-1) ≥ 2k`, `S` is the least prime at or above `⌈k/100⌉ + X`, and `H`
is the least integer at or above the loop's seed `⌊log₄(k+S)⌋` whose
*library* `choose H (H/2)` (`centerBinomial`, which can exceed the true
binomial coefficient) reaches `k+S`; in particular the three documented
examples hold. -/
theorem intermediateSymbols_spec :
    (∀ k : ℕ, k ≤ 8192 →
      ∃ X S H, intermediateSymbols k = some (k + S + H, S, H) ∧
        (1 ≤ X ∧ 2 * k ≤ X * (X - 1) ∧
          ∀ y, 1 ≤ y → y < X → y * (y - 1) < 2 * k) ∧
        (Nat.Prime S ∧ (k + 99) / 100 + X ≤ S ∧
          ∀ q, Nat.Prime q → (k + 99) / 100 + X ≤ q → S ≤ q) ∧
        (k + S ≤ centerBinomial H ∧ Nat.log 4 (k + S) ≤ H ∧
          ∀ h, Nat.log 4 (k + S) ≤ h → h < H → centerBinomial h < k + S)) ∧
    intermediateSymbols 10 = some (23, 7, 6) ∧
    intermediateSymbols 500 = some (553, 41, 12) ∧
    intermediateSymbols 5000 = some (5166, 151, 15) := by
  refine ⟨intermediateSymbols_char, ?_, ?_, ?_⟩
  · exact intermediateSymbols_pin 10 5 7 2 6 (by norm_num) (by norm_num)
      (by norm_num) (by decide) (by decide) (by norm_num) (by decide)
      (Nat.log_eq_of_pow_le_of_lt_pow (by norm_num) (by norm_num))
      (by decide) (by norm_num) (by decide)
  · exact intermediateSymbols_pin 500 33 41 4 12 (by norm_num) (by norm_num)
      (by norm_num) (by decide) (by decide) (by norm_num) (by decide)
      (Nat.log_eq_of_pow_le_of_lt_pow (by norm_num) (by norm_num))
      (by decide) (by norm_num) (by decide)
  · exact intermediateSymbols_pin 5000 101 151 6 15 (by norm_num) (by norm_num)
      (by norm_num) (by decide) (by decide) (by norm_num) (by decide)
      (Nat.log_eq_of_pow_le_of_lt_pow (by norm_num) (by norm_num))
      (by decide) (by norm_num) (by decide)

/-- Witness for the C7 characterization instantiated at `k = 100`. -/
theorem intermediateSymbols_spec_witness :
    ∃ X S H, intermediateSymbols 100 = some (100 + S + H, S, H) ∧
      (1 ≤ X ∧ 2 * 100 ≤ X * (X - 1) ∧
        ∀ y, 1 ≤ y → y < X → y * (y - 1) < 2 * 100) ∧
      (Nat.Prime S ∧ (100 + 99) / 100 + X ≤ S ∧
        ∀ q, Nat.Prime q → (100 + 99) / 100 + X ≤ q → S ≤ q) ∧
      (100 + S ≤ centerBinomial H ∧ Nat.log 4 (100 + S) ≤ H ∧
        ∀ h, Nat.log 4 (100 + S) ≤ h → h < H → centerBinomial h < 100 + S) :=
  intermediateSymbols_spec.1 100 (by norm_num)

/-! ## The decoders' nil sentinel (C8) -/

/-- Go `lubyDecoder`, flattened to the fields `Decode` reads: the codec's
source-block count (`d.codec.SourceBlocks()`), the expected message length,
and the decode matrix. -/
structure lubyDecoder where
  sourceBlocks : ℕ
  messageLength : ℕ
  matrix : SparseMatrix

/-- Go `lubyDecoder.Decode`, with the in-place mutation of `d.matrix` by
`reduce` made explicit: returns the optional output (`none` models Go's nil
slice) together with the decoder state after the call. -/
def lubyDecoder.Decode (d : lubyDecoder) : Option Bytes × lubyDecoder :=
  if d.matrix.determined = false then (none, d)
  else
    let m := d.matrix.reduce
    let p := partition d.messageLength d.sourceBlocks
    (some (m.reconstruct d.messageLength p.1 p.2.1 p.2.2.1 p.2.2.2),
      { d with matrix := m })

/-- Go `binaryDecoder`, flattened to the fields `Decode` reads
(`d.codec.numSourceBlocks`, `d.messageLength`, `d.matrix`). -/
structure binaryDecoder where
  numSourceBlocks : ℕ
  messageLength : ℕ
  matrix : SparseMatrix

/-- Go `binaryDecoder.Decode`: same guard and reconstruction as the Luby
decoder. -/
def binaryDecoder.Decode (d : binaryDecoder) : Option Bytes × binaryDecoder :=
  if d.matrix.determined = false then (none, d)
  else
    let m := d.matrix.reduce
    let p := partition d.messageLength d.numSourceBlocks
    (some (m.reconstruct d.messageLength p.1 p.2.1 p.2.2.1 p.2.2.2),
      { d with matrix := m })

/-- Go `onlineDecoder`, flattened to the fields `Decode` reads
(`d.codec.numSourceBlocks`, `d.messageLength`, `d.matrix`; the matrix has
`numSourceBlocks + numAuxBlocks` rows, which `Decode` does not consult
directly). -/
structure onlineDecoder where
  numSourceBlocks : ℕ
  messageLength : ℕ
  matrix : SparseMatrix

/-- Go `onlineDecoder.Decode`: same guard and reconstruction as the Luby
decoder (partitioned over the source blocks only). -/
def onlineDecoder.Decode (d : onlineDecoder) : Option Bytes × onlineDecoder :=
  if d.matrix.determined = false then (none, d)
  else
    let m := d.matrix.reduce
    let p := partition d.messageLength d.numSourceBlocks
    (some (m.reconstruct d.messageLength p.1 p.2.1 p.2.2.1 p.2.2.2),
      { d with matrix := m })

/-- Go `ltEncode` for the raptor code, parametrized over `findLTIndices`.
Modelled from the spec: the real `findLTIndices` reads `v0table`, `v1table`
and `systematicIndextable`, which are absent from this tree, so the index
function is kept abstract.  Go indexes `c[i]` directly; `findLTIndices`
yields indices below `L = len(c)`, so the out-of-range default (zero block)
is never consulted there. -/
def ltEncode (findLTIndices : ℕ → ℕ → List ℕ) (k x : ℕ) (c : List Block) :
    Block :=
  (findLTIndices k x).foldl (fun result i => result.xor (c.getD i Block.zero))
    Block.zero

/-- Go `raptorDecoder`, flattened to the fields `Decode` reads
(`d.codec.NumSourceSymbols`, `d.messageLength`, `d.matrix`). -/
structure raptorDecoder where
  numSourceSymbols : ℕ
  messageLength : ℕ
  matrix : SparseMatrix

/-- Go `raptorDecoder.Decode`: after the guard and `reduce`, the source
blocks are re-derived from the intermediate blocks by `ltEncode` and pasted
together with the `reconstruct` loop shape. -/
def raptorDecoder.Decode (d : raptorDecoder)
    (findLTIndices : ℕ → ℕ → List ℕ) : Option Bytes × raptorDecoder :=
  if d.matrix.determined = false then (none, d)
  else
    let m := d.matrix.reduce
    let source := (List.range d.numSourceSymbols).map
      (fun i => ltEncode findLTIndices d.numSourceSymbols i m.v)
    let p := partition d.messageLength d.numSourceSymbols
    (some ((((List.range p.2.2.1).map
          (fun i => (source.getD i Block.zero).data.take p.1)).flatten) ++
        (((List.range' p.2.2.1 p.2.2.2).map
          (fun i => (source.getD i Block.zero).data.take p.2.1)).flatten)),
      { d with matrix := m })

/-- Go `ru10Decoder`: wraps a raptor-style decoder state (`d.decoder`). -/
structure ru10Decoder where
  decoder : raptorDecoder

/-- Go `ru10Decoder.Decode`: same guard, then reconstructs directly from
the leading rows of the reduced matrix (its two append loops are exactly the
`reconstruct` body). -/
def ru10Decoder.Decode (d : ru10Decoder) : Option Bytes × ru10Decoder :=
  if d.decoder.matrix.determined = false then (none, d)
  else
    let m := d.decoder.matrix.reduce
    let p := partition d.decoder.messageLength d.decoder.numSourceSymbols
    (some (m.reconstruct d.decoder.messageLength p.1 p.2.1 p.2.2.1 p.2.2.2),
      { decoder := { d.decoder with matrix := m } })

/-- C8: each of the five decoders' `Decode` returns the nil sentinel
exactly when `determined` is false — equivalently, when some matrix row has
an empty coefficient list — and in that case the decoder state (in
particular its matrix) is left unchanged. -/
theorem Decode_nil_iff :
    (∀ m : SparseMatrix, m.determined = false ↔ ∃ r ∈ m.coeff, r = []) ∧
    (∀ d : lubyDecoder, (d.Decode.1 = none ↔ d.matrix.determined = false) ∧
      (d.Decode.1 = none → d.Decode.2 = d)) ∧
    (∀ d : binaryDecoder, (d.Decode.1 = none ↔ d.matrix.determined = false) ∧
      (d.Decode.1 = none → d.Decode.2 = d)) ∧
    (∀ d : onlineDecoder, (d.Decode.1 = none ↔ d.matrix.determined = false) ∧
      (d.Decode.1 = none → d.Decode.2 = d)) ∧
    (∀ (d : raptorDecoder) (fli : ℕ → ℕ → List ℕ),
      ((d.Decode fli).1 = none ↔ d.matrix.determined = false) ∧
      ((d.Decode fli).1 = none → (d.Decode fli).2 = d)) ∧
    (∀ d : ru10Decoder,
      (d.Decode.1 = none ↔ d.decoder.matrix.determined = false) ∧
      (d.Decode.1 = none → d.Decode.2 = d)) := by
  refine ⟨?_, ?_, ?_, ?_, ?_, ?_⟩
  · intro m
    unfold SparseMatrix.determined
    rw [← Bool.not_eq_true, List.all_eq_true]
    push_neg
    constructor
    · rintro ⟨r, hr, hne⟩
      exact ⟨r, hr, by simpa using hne⟩
    · rintro ⟨r, hr, hne⟩
      exact ⟨r, hr, by simp [hne]⟩
  · intro d
    unfold lubyDecoder.Decode
    by_cases h : d.matrix.determined = false
    · rw [if_pos h]
      exact ⟨by simp [h], fun _ => rfl⟩
    · rw [if_neg h]
      refine ⟨⟨fun hc => by simp at hc, fun hf => absurd hf h⟩,
        fun hc => by simp at hc⟩
  · intro d
    unfold binaryDecoder.Decode
    by_cases h : d.matrix.determined = false
    · rw [if_pos h]
      exact ⟨by simp [h], fun _ => rfl⟩
    · rw [if_neg h]
      refine ⟨⟨fun hc => by simp at hc, fun hf => absurd hf h⟩,
        fun hc => by simp at hc⟩
  · intro d
    unfold onlineDecoder.Decode
    by_cases h : d.matrix.determined = false
    · rw [if_pos h]
      exact ⟨by simp [h], fun _ => rfl⟩
    · rw [if_neg h]
      refine ⟨⟨fun hc => by simp at hc, fun hf => absurd hf h⟩,
        fun hc => by simp at hc⟩
  · intro d fli
    unfold raptorDecoder.Decode
    by_cases h : d.matrix.determined = false
    · rw [if_pos h]
      exact ⟨by simp [h], fun _ => rfl⟩
    · rw [if_neg h]
      refine ⟨⟨fun hc => by simp at hc, fun hf => absurd hf h⟩,
        fun hc => by simp at hc⟩
  · intro d
    unfold ru10Decoder.Decode
    by_cases h : d.decoder.matrix.determined = false
    · rw [if_pos h]
      exact ⟨by simp [h], fun _ => rfl⟩
    · rw [if_neg h]
      refine ⟨⟨fun hc => by simp at hc, fun hf => absurd hf h⟩,
        fun hc => by simp at hc⟩

/-- C8 witness: a fresh single-row Luby decoder is undetermined, so its
`Decode` yields the nil sentinel. -/
theorem Decode_nil_iff_witness :
    (lubyDecoder.Decode ⟨1, 0, freshMatrix 1⟩).1 = none :=
  ((Decode_nil_iff.2.1 ⟨1, 0, freshMatrix 1⟩).1).mpr (by decide)

/-! ## Solver correctness: satisfaction and back-substitution (towards C1)

The encode/decode roundtrip factors into a generic solver half — any set of
valid equations satisfied by an assignment of "true" blocks, fed to a fresh
matrix that comes out determined, reduces to exactly those blocks — and a
per-codec half tying each codec's `PickIndices`/intermediate-block
construction to such an assignment.  The generic half is developed here. -/

/-- Byte strings are compared position-wise with a zero default: Go treats
bytes past a block's data as zero padding, so this is the value equality the
codecs work modulo. -/
def EqZ (a b : Bytes) : Prop := ∀ i, a.getD i 0 = b.getD i 0

theorem EqZ.refl (a : Bytes) : EqZ a a := fun _ => rfl

theorem EqZ.symm {a b : Bytes} (h : EqZ a b) : EqZ b a := fun i => (h i).symm

theorem EqZ.trans {a b c : Bytes} (h1 : EqZ a b) (h2 : EqZ b c) : EqZ a c :=
  fun i => (h1 i).trans (h2 i)

theorem getD_replicate_zero (n i : ℕ) : (List.replicate n 0).getD i 0 = 0 := by
  induction n generalizing i with
  | zero => simp
  | succ m ih =>
    cases i with
    | zero => simp [List.replicate_succ]
    | succ j => simpa [List.replicate_succ] using ih j

/-- Appending zero bytes does not change a byte string's value. -/
theorem EqZ_append_zeros (l : Bytes) (n : ℕ) : EqZ (l ++ List.replicate n 0) l := by
  intro i
  induction l generalizing i with
  | nil => simpa using getD_replicate_zero n i
  | cons x xs ih =>
    cases i with
    | zero => simp
    | succ j => simpa using ih j

/-- `bxor` is position-wise XOR under the zero default. -/
theorem bxor_getD (xs ys : Bytes) (i : ℕ) :
    (bxor xs ys).getD i 0 = (xs.getD i 0) ^^^ (ys.getD i 0) := by
  induction xs generalizing ys i with
  | nil => simp
  | cons x xs ih =>
    cases ys with
    | nil => simp
    | cons y ys =>
      cases i with
      | zero => simp
      | succ n => simpa using ih ys n

/-- The XOR of the data of the blocks `σ x` over the index list `c`: the
value a decode equation predicts for its right-hand side under the
assignment `σ` of blocks to indices. -/
def xorAll (σ : ℕ → Block) (c : List ℕ) : Bytes :=
  c.foldr (fun x acc => bxor (σ x).data acc) []

theorem xorAll_getD (σ : ℕ → Block) (c : List ℕ) (i : ℕ) :
    (xorAll σ c).getD i 0 =
      c.foldr (fun x acc => ((σ x).data.getD i 0) ^^^ acc) 0 := by
  induction c with
  | nil => simp [xorAll]
  | cons x c ih =>
    simp only [xorAll, List.foldr_cons] at ih ⊢
    rw [bxor_getD, ih]

/-- The equation `(c, b)` is satisfied by the assignment `σ`: the XOR of `σ`
over `c` agrees with `b`'s data up to trailing zeros. -/
def Sat (σ : ℕ → Block) (c : List ℕ) (b : Block) : Prop :=
  EqZ (xorAll σ c) b.data

/-- Every occupied row of the matrix is satisfied by `σ`. -/
def SatRows (σ : ℕ → Block) (m : SparseMatrix) : Prop :=
  ∀ i, m.row i ≠ [] → Sat σ (m.row i) (m.val i)

theorem xor_xor_cancel_left (a b c : ℕ) : (a ^^^ b) ^^^ (a ^^^ c) = b ^^^ c := by
  rw [Nat.xor_assoc, ← Nat.xor_assoc b a c, Nat.xor_comm b a, Nat.xor_assoc a b c,
    ← Nat.xor_assoc a a (b ^^^ c), Nat.xor_self, Nat.zero_xor]

theorem xor_rotate_left (a b c : ℕ) : a ^^^ (b ^^^ c) = b ^^^ (a ^^^ c) := by
  rw [← Nat.xor_assoc, Nat.xor_comm a b, Nat.xor_assoc]

/-- XOR-folding a function over `symmDiff xs ys` equals the XOR of the two
folds: the entries dropped in equal-head pairs contribute twice, i.e. not at
all. -/
theorem foldXor_symmDiff (f : ℕ → ℕ) : ∀ (xs ys : List ℕ),
    (symmDiff xs ys).foldr (fun x acc => f x ^^^ acc) 0 =
      (xs.foldr (fun x acc => f x ^^^ acc) 0) ^^^
        (ys.foldr (fun x acc => f x ^^^ acc) 0) := by
  intro xs ys
  induction xs, ys using symmDiff.induct with
  | case1 ys =>
    rw [symmDiff]
    simp
  | case2 x xs =>
    rw [symmDiff]
    simp
  | case3 xs y ys ih =>
    rw [symmDiff, if_pos rfl, ih, List.foldr_cons, List.foldr_cons,
      xor_xor_cancel_left (f y)]
  | case4 x xs y ys hne hlt ih =>
    rw [symmDiff, if_neg hne, if_pos hlt, List.foldr_cons, List.foldr_cons, ih,
      Nat.xor_assoc]
  | case5 x xs y ys hne hlt ih =>
    rw [symmDiff, if_neg hne, if_neg hlt, List.foldr_cons, ih, List.foldr_cons,
      xor_rotate_left, List.foldr_cons]

/-- `xorRow` preserves satisfaction: the symmetric difference of two
satisfied equations, valued at the XOR of their values, is satisfied. -/
theorem Sat_symmDiff (σ : ℕ → Block) {c1 c2 : List ℕ} {b1 b2 : Block}
    (h1 : Sat σ c1 b1) (h2 : Sat σ c2 b2) :
    Sat σ (symmDiff c1 c2) (b2.xor b1) := by
  intro i
  rw [Block.xor_data, bxor_getD, xorAll_getD, foldXor_symmDiff,
    ← xorAll_getD, ← xorAll_getD, h1 i, h2 i, Nat.xor_comm]

/-- The insertion loop preserves satisfaction of the stored rows: every
candidate it manipulates stays satisfied, and every store writes a satisfied
equation. -/
theorem addEqLoop_sat (σ : ℕ → Block) : ∀ (fuel : ℕ) (m : SparseMatrix)
    (c : List ℕ) (b : Block) (m' : SparseMatrix),
    addEqLoop fuel m c b = some m' →
    m.v.length = m.coeff.length → SatRows σ m → Sat σ c b →
    SatRows σ m' := by
  intro fuel
  induction fuel with
  | zero => intro m c b m' h; simp [addEqLoop] at h
  | succ n ih =>
    intro m c b m' h hlen hm hc
    cases c with
    | nil =>
      rw [addEqLoop] at h
      cases h
      exact hm
    | cons s rest =>
      rw [addEqLoop] at h
      split at h
      · -- store at the empty row s
        next hrow =>
        cases h
        intro i hi
        by_cases hins : s = i
        · subst hins
          by_cases hsl : s < m.coeff.length
          · rw [show SparseMatrix.row
                  { m with coeff := m.coeff.set s (s :: rest), v := m.v.set s b } s
                = s :: rest from getD_set_self _ _ _ _ hsl]
            rw [show SparseMatrix.val
                  { m with coeff := m.coeff.set s (s :: rest), v := m.v.set s b } s
                = b from getD_set_self _ _ _ _ (by omega)]
            exact hc
          · exact absurd (List.getD_eq_default _ _ (by simp; omega)) hi
        · rw [show SparseMatrix.row
                { m with coeff := m.coeff.set s (s :: rest), v := m.v.set s b } i
              = m.row i from getD_set_ne _ _ _ _ _ hins] at hi ⊢
          rw [show SparseMatrix.val
                { m with coeff := m.coeff.set s (s :: rest), v := m.v.set s b } i
              = m.val i from getD_set_ne _ _ _ _ _ hins]
          exact hm i hi
      · split at h
        · -- reduce the candidate against row s
          next hrow hge =>
          exact ih _ _ _ _ h hlen hm (Sat_symmDiff σ (hm s hrow) hc)
        · -- swap the candidate with row s, continue with the displaced row
          next hrow hge =>
          refine ih _ _ _ _ h (by simp [hlen]) ?_ ?_
          · intro i hi
            by_cases hins : s = i
            · subst hins
              by_cases hsl : s < m.coeff.length
              · rw [show SparseMatrix.row
                      { m with coeff := m.coeff.set s (s :: rest), v := m.v.set s b } s
                    = s :: rest from getD_set_self _ _ _ _ hsl]
                rw [show SparseMatrix.val
                      { m with coeff := m.coeff.set s (s :: rest), v := m.v.set s b } s
                    = b from getD_set_self _ _ _ _ (by omega)]
                exact hc
              · exact absurd (List.getD_eq_default _ _ (by simp; omega)) hi
            · rw [show SparseMatrix.row
                    { m with coeff := m.coeff.set s (s :: rest), v := m.v.set s b } i
                  = m.row i from getD_set_ne _ _ _ _ _ hins] at hi ⊢
              rw [show SparseMatrix.val
                    { m with coeff := m.coeff.set s (s :: rest), v := m.v.set s b } i
                  = m.val i from getD_set_ne _ _ _ _ _ hins]
              exact hm i hi
          · exact hm s hrow

/-- `addEquation` preserves satisfaction of the stored rows. -/
theorem addEquation_sat (σ : ℕ → Block) (m : SparseMatrix) (c : List ℕ)
    (b : Block) (hlen : m.v.length = m.coeff.length) (hm : SatRows σ m)
    (hc : Sat σ c b) : SatRows σ (m.addEquation c b) := by
  unfold SparseMatrix.addEquation
  cases h : addEqLoop (2 * m.L + 2) m c b with
  | none => simpa using hm
  | some m' => simpa using addEqLoop_sat σ _ _ _ _ _ h hlen hm hc

/-- `addEquation` never changes the shape of the matrix. -/
theorem addEquation_shape (m : SparseMatrix) (c : List ℕ) (b : Block) :
    (m.addEquation c b).coeff.length = m.coeff.length ∧
      (m.addEquation c b).v.length = m.v.length := by
  unfold SparseMatrix.addEquation
  cases h : addEqLoop (2 * m.L + 2) m c b with
  | none => simp
  | some m' => simpa using addEqLoop_lengths _ _ _ _ _ h

theorem map_range_getD {α : Type} (f : ℕ → α) (n j : ℕ) (d : α) (h : j < n) :
    ((List.range n).map f).getD j d = f j := by
  rw [List.getD_eq_getElem _ _ (by simpa using h)]
  simp

/-- `reduceRound` never changes the shape of the matrix. -/
theorem reduceRound_lengths (m : SparseMatrix) (i : ℕ) :
    (m.reduceRound i).coeff.length = m.coeff.length ∧
      (m.reduceRound i).v.length = m.v.length := by
  unfold SparseMatrix.reduceRound
  constructor
  · simp
  · simp

theorem reduceRound_row_ne (m : SparseMatrix) (i j : ℕ) (h : i ≠ j) :
    (m.reduceRound i).row j = m.row j := by
  unfold SparseMatrix.reduceRound SparseMatrix.row
  exact getD_set_ne _ _ _ _ _ h

theorem reduceRound_row_self (m : SparseMatrix) (i : ℕ) (h : i < m.coeff.length) :
    (m.reduceRound i).row i = (m.row i).take 1 := by
  unfold SparseMatrix.reduceRound SparseMatrix.row
  exact getD_set_self _ _ _ _ h

theorem reduceRound_val (m : SparseMatrix) (i j : ℕ) (hj : j < m.v.length) :
    (m.reduceRound i).val j =
      if j < i then
        xorTimes (((m.row j).drop 1).count ((m.row i).getD 0 0)) (m.val i) (m.val j)
      else m.val j := by
  unfold SparseMatrix.reduceRound SparseMatrix.val
  dsimp only
  rw [map_range_getD _ _ _ _ hj]

/-- Widening a strict filter bound past `t` adds exactly `t`'s contribution
to an XOR fold, when `t` occurs (once) in the list. -/
theorem foldXor_filter_succ (f : ℕ → ℕ) (t : ℕ) : ∀ (l : List ℕ), l.Nodup → t ∈ l →
    (l.filter (fun x => decide (x < t + 1))).foldr (fun x acc => f x ^^^ acc) 0 =
      ((l.filter (fun x => decide (x < t))).foldr (fun x acc => f x ^^^ acc) 0)
        ^^^ f t := by
  intro l
  induction l with
  | nil => intro _ h; cases h
  | cons x xs ih =>
    intro hnd hmem
    rw [List.nodup_cons] at hnd
    rcases List.mem_cons.mp hmem with hx | hx
    · subst hx
      rw [List.filter_cons, List.filter_cons, if_pos (by simp), if_neg (by simp),
        List.foldr_cons]
      have hcong : xs.filter (fun a => decide (a < t + 1))
          = xs.filter (fun a => decide (a < t)) := by
        apply List.filter_congr
        intro a ha
        have hax : a ≠ t := fun hc => hnd.1 (by rw [← hc]; exact ha)
        simp only [decide_eq_decide]
        omega
      rw [hcong, Nat.xor_comm]
    · have hxt : x ≠ t := fun hc => hnd.1 (by rw [hc]; exact hx)
      rw [List.filter_cons, List.filter_cons]
      by_cases hlt : x < t
      · rw [if_pos (by simp only [decide_eq_true_eq]; omega),
          if_pos (by simp only [decide_eq_true_eq]; omega),
          List.foldr_cons, List.foldr_cons, ih hnd.2 hx, Nat.xor_assoc]
      · rw [if_neg (by simp only [decide_eq_true_eq]; omega),
          if_neg (by simp only [decide_eq_true_eq]; omega)]
        exact ih hnd.2 hx

/-- The invariant of back-substitution: after the rounds `L-1, …, t` have
run, rows at or above `t` hold unit equations with the solved values, rows
below `t` are untouched, and every row's value matches the XOR of `σ` over
its not-yet-eliminated (`< t`) coefficients. -/
theorem reduce_inv (m : SparseMatrix) (σ : ℕ → Block) (hwf : m.WF)
    (hdet : ∀ i < m.L, m.row i ≠ []) (hsat : SatRows σ m) :
    ∀ (n t : ℕ), t + n = m.L →
    ∃ mt, (List.range' t n).reverse.foldl (fun acc i => acc.reduceRound i) m = mt ∧
      mt.coeff.length = m.coeff.length ∧ mt.v.length = m.v.length ∧
      (∀ j < t, mt.row j = m.row j) ∧
      (∀ j, t ≤ j → j < m.L → mt.row j = [j]) ∧
      (∀ j < m.L, EqZ (xorAll σ (if t ≤ j then [j]
          else (m.row j).filter (fun x => decide (x < t)))) ((mt.val j).data)) := by
  intro n
  induction n generalizing m with
  | zero =>
    intro t ht
    refine ⟨m, by simp, rfl, rfl, fun j _ => rfl, fun j h1 h2 => absurd h1 (by omega), ?_⟩
    intro j hj
    rw [if_neg (by omega)]
    rw [List.filter_eq_self.mpr (by
      intro a ha
      simp only [decide_eq_true_eq]
      have := (hwf.row_valid j).2 a ha
      omega)]
    exact hsat j (hdet j hj)
  | succ k ih =>
    intro t ht
    obtain ⟨m1, hfold, hclen, hvlen, hlow, hhigh, hval⟩ := ih m hwf hdet hsat (t + 1) (by omega)
    have htL : t < m.L := by omega
    have hstep : (List.range' t (k + 1)).reverse.foldl
        (fun acc i => acc.reduceRound i) m = m1.reduceRound t := by
      rw [show List.range' t (k + 1) = t :: List.range' (t + 1) k from
          List.range'_succ t k 1,
        List.reverse_cons, List.foldl_append, hfold]
      rfl
    have hrow_t : m1.row t = m.row t := hlow t (by omega)
    have hne_t : m.row t ≠ [] := hdet t htL
    obtain ⟨tl, htl⟩ : ∃ tl, m.row t = t :: tl := by
      cases hh : m.row t with
      | nil => exact absurd hh hne_t
      | cons a tlx =>
        have hhd := hwf.row_head t hne_t
        rw [hh] at hhd
        simp at hhd
        exact ⟨tlx, by rw [hhd]⟩
    have hsorted_t := (hwf.row_valid t).1
    rw [htl] at hsorted_t
    have hfilt_t : (t :: tl).filter (fun x => decide (x < t + 1)) = [t] := by
      rw [List.filter_cons, if_pos (by simp)]
      rw [List.filter_eq_nil_iff.mpr (by
        intro a ha
        have := (List.sorted_cons.mp hsorted_t).1 a ha
        simp only [decide_eq_true_eq]
        omega)]
    have hclen' : t < m1.coeff.length := by
      rw [hclen]
      unfold SparseMatrix.L at htL
      omega
    refine ⟨m1.reduceRound t, hstep, ?_, ?_, ?_, ?_, ?_⟩
    · rw [(reduceRound_lengths m1 t).1, hclen]
    · rw [(reduceRound_lengths m1 t).2, hvlen]
    · intro j hj
      rw [reduceRound_row_ne m1 t j (by omega), hlow j (by omega)]
    · intro j h1 h2
      rcases Nat.eq_or_lt_of_le h1 with he | hlt
      · subst he
        rw [reduceRound_row_self m1 t hclen', hrow_t, htl]
        rfl
      · rw [reduceRound_row_ne m1 t j (by omega)]
        exact hhigh j (by omega) h2
    · intro j hj
      have hjv : j < m1.v.length := by
        rw [hvlen, hwf.1]
        unfold SparseMatrix.L at hj
        omega
      rw [reduceRound_val m1 t j hjv]
      have hlead : (m1.row t).getD 0 0 = t := by rw [hrow_t, htl]; rfl
      have hval_t : EqZ (xorAll σ [t]) ((m1.val t).data) := by
        have h := hval t htL
        rw [if_neg (by omega), htl, hfilt_t] at h
        exact h
      by_cases hcase : t ≤ j
      · rw [if_pos hcase, if_neg (show ¬ j < t by omega)]
        rcases Nat.eq_or_lt_of_le hcase with he | hlt2
        · subst he
          exact hval_t
        · have h := hval j hj
          rw [if_pos (by omega)] at h
          exact h
      · rw [if_neg hcase, if_pos (show j < t by omega)]
        have hrow_j : m1.row j = m.row j := hlow j (by omega)
        have hne_j : m.row j ≠ [] := hdet j (by omega)
        obtain ⟨tlj, htlj⟩ : ∃ tlj, m.row j = j :: tlj := by
          cases hh : m.row j with
          | nil => exact absurd hh hne_j
          | cons a tlx =>
            have hhd := hwf.row_head j hne_j
            rw [hh] at hhd
            simp at hhd
            exact ⟨tlx, by rw [hhd]⟩
        have hsorted_j := (hwf.row_valid j).1
        rw [htlj] at hsorted_j
        have hnodup_j : (j :: tlj).Nodup :=
          hsorted_j.imp (fun hab => Nat.ne_of_lt hab)
        have hj' := hval j hj
        rw [if_neg (show ¬ t + 1 ≤ j by omega), htlj] at hj'
        rw [hlead, hrow_j, htlj]
        rw [show (j :: tlj).drop 1 = tlj from rfl]
        by_cases hmem : t ∈ tlj
        · rw [List.count_eq_one_of_mem (List.nodup_cons.mp hnodup_j).2 hmem]
          rw [show xorTimes 1 (m1.val t) (m1.val j) = (m1.val j).xor (m1.val t)
            from rfl]
          intro p
          rw [Block.xor_data, bxor_getD, ← hj' p, ← hval_t p]
          rw [xorAll_getD, xorAll_getD, xorAll_getD]
          rw [foldXor_filter_succ (fun x => (σ x).data.getD p 0) t (j :: tlj)
            hnodup_j (List.mem_cons_of_mem _ hmem)]
          simp only [List.foldr_cons, List.foldr_nil, Nat.xor_zero]
          rw [Nat.xor_assoc, Nat.xor_self, Nat.xor_zero]
        · rw [List.count_eq_zero_of_not_mem hmem]
          rw [show xorTimes 0 (m1.val t) (m1.val j) = m1.val j from rfl]
          rw [show (j :: tlj).filter (fun x => decide (x < t))
              = (j :: tlj).filter (fun x => decide (x < t + 1)) from
            List.filter_congr (by
              intro a ha
              rcases List.mem_cons.mp ha with h1 | h1
              · simp only [decide_eq_decide]
                omega
              · have hat : a ≠ t := fun hc => hmem (by rw [← hc]; exact h1)
                simp only [decide_eq_decide]
                omega)]
          exact hj'

/-- Back-substitution correctness: on a well-formed, determined matrix whose
occupied rows are satisfied by `σ`, `reduce` leaves every row holding the
unit equation for its own index with value `σ`'s block (up to trailing
zeros). -/
theorem reduce_solves (m : SparseMatrix) (σ : ℕ → Block) (hwf : m.WF)
    (hdet : m.determined = true) (hsat : SatRows σ m) :
    ∀ j < m.L, m.reduce.row j = [j] ∧ EqZ ((m.reduce.val j).data) ((σ j).data) := by
  have hdet' : ∀ i < m.L, m.row i ≠ [] := by
    intro i hi
    unfold SparseMatrix.determined at hdet
    rw [List.all_eq_true] at hdet
    have hmem : m.row i ∈ m.coeff := by
      unfold SparseMatrix.row
      rw [List.getD_eq_getElem _ _ (by unfold SparseMatrix.L at hi; omega)]
      exact List.getElem_mem _
    simpa using hdet _ hmem
  obtain ⟨mt, hfold, _, _, _, hhigh, hval⟩ :=
    reduce_inv m σ hwf hdet' hsat m.L 0 (by omega)
  have hred : m.reduce = mt := by
    unfold SparseMatrix.reduce
    rw [List.range_eq_range' m.coeff.length]
    exact hfold
  intro j hj
  rw [hred]
  refine ⟨hhigh j (by omega) hj, ?_⟩
  have h := hval j hj
  rw [if_pos (by omega)] at h
  have hx : xorAll σ [j] = (σ j).data := by
    unfold xorAll
    simp
  rw [hx] at h
  exact fun p => (h p).symm

/-- A whole batch of satisfied equations preserves satisfaction. -/
theorem addEquations_sat (σ : ℕ → Block) :
    ∀ (eqs : List (List ℕ × Block)) (m : SparseMatrix),
    m.v.length = m.coeff.length → SatRows σ m →
    (∀ e ∈ eqs, Sat σ e.1 e.2) →
    SatRows σ (addEquations m eqs) ∧
      (addEquations m eqs).v.length = (addEquations m eqs).coeff.length := by
  intro eqs
  induction eqs with
  | nil =>
    intro m hlen hm _
    exact ⟨hm, hlen⟩
  | cons e rest ih =>
    intro m hlen hm hs
    have h1 := addEquation_sat σ m e.1 e.2 hlen hm (hs e (List.mem_cons_self _ _))
    have h2 := addEquation_shape m e.1 e.2
    exact ih (m.addEquation e.1 e.2) (by omega) h1
      (fun e' he' => hs e' (List.mem_cons_of_mem _ he'))

theorem freshMatrix_row (L i : ℕ) : (freshMatrix L).row i = [] := by
  unfold SparseMatrix.row freshMatrix
  rw [List.getD_eq_getElem?_getD, List.getElem?_replicate]
  split <;> rfl

/-- Position-wise value of the encoder's XOR fold: the initial block XORed
with the fold over the in-range indices. -/
theorem foldl_xor_getD (source : List Block) : ∀ (indices : List ℕ) (b0 : Block)
    (p : ℕ),
    ((indices.foldl (fun symbol i =>
        if i < source.length then symbol.xor (source.getD i Block.zero)
        else symbol) b0).data.getD p 0)
      = (b0.data.getD p 0) ^^^
        ((indices.filter (fun i => decide (i < source.length))).foldr
          (fun x acc => ((source.getD x Block.zero).data.getD p 0) ^^^ acc) 0) := by
  intro indices
  induction indices with
  | nil => intro b0 p; simp
  | cons i rest ih =>
    intro b0 p
    rw [List.foldl_cons, List.filter_cons]
    by_cases hi : i < source.length
    · rw [if_pos hi, if_pos (by simpa using hi), List.foldr_cons, ih,
        Block.xor_data, bxor_getD, Nat.xor_assoc]
    · rw [if_neg hi, if_neg (by simpa using hi), ih]

/-- The encoder's XOR block satisfies its own equation: for an in-range
index list, `generateLubyTransformBlock` is exactly the XOR of the source
blocks over the list. -/
theorem generateLubyTransformBlock_sat (source : List Block) (indices : List ℕ)
    (hin : ∀ i ∈ indices, i < source.length) :
    Sat (fun i => source.getD i Block.zero) indices
      (generateLubyTransformBlock source indices) := by
  intro p
  rw [xorAll_getD]
  unfold generateLubyTransformBlock
  rw [foldl_xor_getD source indices Block.zero p]
  rw [List.filter_eq_self.mpr (by intro a ha; simpa using hin a ha)]
  simp [Block.zero]

/-- The generic encode/decode roundtrip (the solver half of the roundtrip
claim, with the codec's index picker abstract, which is how every decoder
consumes it): encode the intermediate blocks over any picker whose outputs
are valid equations, add the encoded payloads with the same picker to a
fresh decoder matrix — exactly what each `AddBlocks` does — and whenever
the matrix comes out determined, the reduced matrix holds every
intermediate block, up to trailing zeros. -/
theorem encode_decode_roundtrip (message : Bytes) (ids : List ℤ) (c : Codec)
    (hv : ∀ id ∈ ids, ValidEq
      (c.generateIntermediateBlocks message c.sourceBlocks).length
      (c.pickIndices id))
    (hdet : (addEquations
        (freshMatrix (c.generateIntermediateBlocks message c.sourceBlocks).length)
        ((EncodeLTBlocks message ids c).map
          (fun blk => (c.pickIndices blk.blockCode, ⟨blk.data, 0⟩)))).determined
        = true) :
    ∀ j < (c.generateIntermediateBlocks message c.sourceBlocks).length,
      ((addEquations
          (freshMatrix (c.generateIntermediateBlocks message c.sourceBlocks).length)
          ((EncodeLTBlocks message ids c).map
            (fun blk => (c.pickIndices blk.blockCode, ⟨blk.data, 0⟩)))).reduce).row j
        = [j] ∧
      EqZ (((addEquations
          (freshMatrix (c.generateIntermediateBlocks message c.sourceBlocks).length)
          ((EncodeLTBlocks message ids c).map
            (fun blk => (c.pickIndices blk.blockCode, ⟨blk.data, 0⟩)))).reduce.val
          j).data)
        (((c.generateIntermediateBlocks message c.sourceBlocks).getD j
          Block.zero).data) := by
  have hLfresh : (freshMatrix
      (c.generateIntermediateBlocks message c.sourceBlocks).length).L
      = (c.generateIntermediateBlocks message c.sourceBlocks).length := by
    simp [freshMatrix, SparseMatrix.L]
  have heqs : (EncodeLTBlocks message ids c).map
      (fun blk => (c.pickIndices blk.blockCode, (⟨blk.data, 0⟩ : Block)))
      = ids.map (fun id => (c.pickIndices id,
        (⟨(generateLubyTransformBlock
            (c.generateIntermediateBlocks message c.sourceBlocks)
            (c.pickIndices id)).data ++
          List.replicate (generateLubyTransformBlock
            (c.generateIntermediateBlocks message c.sourceBlocks)
            (c.pickIndices id)).padding 0, 0⟩ : Block))) := by
    unfold EncodeLTBlocks
    rw [List.map_map]
    rfl
  have hv' : ∀ e ∈ (EncodeLTBlocks message ids c).map
      (fun blk => (c.pickIndices blk.blockCode, (⟨blk.data, 0⟩ : Block))),
      ValidEq (freshMatrix
        (c.generateIntermediateBlocks message c.sourceBlocks).length).L e.1 := by
    rw [heqs, hLfresh]
    intro e he
    obtain ⟨id, hid, rfl⟩ := List.mem_map.mp he
    exact hv id hid
  have hs' : ∀ e ∈ (EncodeLTBlocks message ids c).map
      (fun blk => (c.pickIndices blk.blockCode, (⟨blk.data, 0⟩ : Block))),
      Sat (fun i => (c.generateIntermediateBlocks message c.sourceBlocks).getD i
        Block.zero) e.1 e.2 := by
    rw [heqs]
    intro e he
    obtain ⟨id, hid, rfl⟩ := List.mem_map.mp he
    have hsat := generateLubyTransformBlock_sat
      (c.generateIntermediateBlocks message c.sourceBlocks) (c.pickIndices id)
      (fun i hi => (hv id hid).2 i hi)
    exact hsat.trans (EqZ_append_zeros _ _).symm
  have hwf := addEquations_wf
    (freshMatrix (c.generateIntermediateBlocks message c.sourceBlocks).length)
    _ (freshMatrix_wf _) hv'
  have hsat0 : SatRows (fun i =>
      (c.generateIntermediateBlocks message c.sourceBlocks).getD i Block.zero)
      (freshMatrix (c.generateIntermediateBlocks message c.sourceBlocks).length) :=
    fun i hi => absurd (freshMatrix_row _ i) hi
  have hsatm := addEquations_sat _ _
    (freshMatrix (c.generateIntermediateBlocks message c.sourceBlocks).length)
    (by simp [freshMatrix]) hsat0 hs'
  have hmain := reduce_solves _ _ hwf.1 hdet hsatm.1
  intro j hj
  exact hmain j (by rw [hwf.2, hLfresh]; exact hj)

end GoFountain

